import Mathlib

/-!
# mkvlib: inspection, extraction, completeness check and remux of Matroska containers

A shallow embedding of `src/mkvlib/mkv.go` and the properties of it that the specification
states.

Conventions of the embedding.

* A Go `string` is a `Str`, a list of characters.  The strings the program handles are text
  (`encoding/json` only ever produces valid UTF-8 and every separator the code looks for is
  ASCII), so the byte-wise functions of the Go library (`strings.Split`, `strings.HasPrefix`,
  `strings.HasSuffix`, `path.Join`) act on them character by character.
* A Go `int` is an `Int`; error counters are `Nat` (they are only incremented and compared
  with zero).
* Everything outside the process is a `World`: the answers of the external tools and of the
  helper functions of the repository that are not part of `mkv.go`.  Every answer may depend
  on everything that happened before, the `Trace`.
-/

namespace mkvlib

/-- A Go string. -/
abbrev Str := List Char

/-! ## The Go library functions the code calls -/

/-- Go `strings.HasPrefix`. -/
def HasPrefix (s pre : Str) : Bool := pre.isPrefixOf s

/-- Go `strings.HasSuffix`. -/
def HasSuffix (s suf : Str) : Bool := suf.isSuffixOf s

/-- Go `strings.Split` for a separator of one character (the code only splits on `":"` and
`"_"`): the pieces between the separators, a single piece when there is none. -/
def Split (s : Str) (sep : Char) : List Str := s.splitOn sep

/-- Go `fmt.Sprintf("%d", n)`. -/
def fmtInt : Int → Str
  | Int.ofNat m => Nat.toDigits 10 m
  | Int.negSucc m => '-' :: Nat.toDigits 10 (m + 1)

/-- Go `strings.TrimPrefix`. -/
def TrimPrefix (s pre : Str) : Str := if HasPrefix s pre then s.drop pre.length else s

/-- One element of a path in Go `path.Clean`; `stack` holds the elements kept so far, the
oldest first.  Empty elements and `.` are dropped, `..` removes the element before it when
there is one to remove, is dropped at the root, and is kept otherwise. -/
def cleanStep (rooted : Bool) (stack : List Str) (e : Str) : List Str :=
  if e = [] ∨ e = ['.'] then stack
  else if e = ['.', '.'] then
    match stack.getLast? with
    | some top => if top = ['.', '.'] then stack ++ [e] else stack.dropLast
    | none => if rooted then stack else stack ++ [e]
  else stack ++ [e]

/-- Whether the path starts at the root. -/
def isRooted (p : Str) : Bool := p.head? == some '/'

/-- The elements that `path.Clean` keeps, the oldest first. -/
def cleanStack (p : Str) : List Str := (p.splitOn '/').foldl (cleanStep (isRooted p)) []

/-- Go `path.Clean`: the shortest path equivalent to `p`, computed on its elements; a path
with nothing left is `.`, or `/` at the root. -/
def pathClean (p : Str) : Str :=
  let stack := cleanStack p
  if isRooted p then '/' :: List.intercalate ['/'] stack
  else if stack.isEmpty then ['.'] else List.intercalate ['/'] stack

/-- Go `path.Join`: the elements that count are joined with a slash, the result is cleaned;
no element, or only empty ones, give the empty string. -/
def pathJoin (elem : List Str) : Str :=
  if (elem.map List.length).sum = 0 then []
  else
    pathClean (elem.foldl (fun buf e =>
      if 0 < buf.length ∨ e ≠ [] then (if 0 < buf.length then buf ++ ['/'] else buf) ++ e
      else buf) [])

/-- Go `path.Split`: the path up to and including its last slash, and what follows it. -/
def pathSplit (p : Str) : Str × Str :=
  let file := (p.reverse.takeWhile (fun c => c != '/')).reverse
  (p.take (p.length - file.length), file)

/-- Go `path.Ext`: the suffix of the last element of the path that starts at its last dot,
empty when that element has no dot. -/
def pathExt (p : Str) : Str :=
  let file := (pathSplit p).2
  if file.contains '.' then '.' :: (file.reverse.takeWhile (fun c => c != '.')).reverse
  else []

/-- The four results of the helper `splitPath`. -/
structure SplitPath where
  dir : Str
  name : Str
  ext : Str
  namewithoutext : Str
  deriving DecidableEq, Inhabited

/-- Modelled from the spec: the helper `splitPath`, which `mkv.go` calls and does not define.
Its results are used as the directory of a path, its base name, its extension and its base
name without the extension; they are computed here with `path.Split` and `path.Ext`. -/
def splitPath (p : Str) : SplitPath :=
  let ds := pathSplit p
  let ext := pathExt ds.2
  { dir := ds.1, name := ds.2, ext := ext,
    namewithoutext := ds.2.take (ds.2.length - ext.length) }

/-- Go `regexp.QuoteMeta`: a backslash before every character that is special in a regular
expression. -/
def QuoteMeta (s : Str) : Str :=
  s.flatMap (fun c => if "\\.+*?()|[]{}^$".toList.contains c then ['\\', c] else [c])

/-! ### Regular expressions (the fragment of Go `regexp` that `CheckSubset` compiles) -/

/-- Abstract syntax of the regular expressions in use. -/
inductive Regexp where
  /-- a literal character, such as an escaped dot -/
  | lit (c : Char)
  /-- a character class -/
  | cls (p : Char → Bool)
  /-- concatenation -/
  | cat (a b : Regexp)
  /-- bounded repetition: exactly `n` times -/
  | rep (a : Regexp) (n : Nat)
  /-- one or more times -/
  | plus (a : Regexp)
  /-- the end of the text (there is no multi-line flag) -/
  | eot

/-- Apply `f` exactly `n` times in sequence, collecting every remainder. -/
def Regexp.iter (f : Str → List Str) : Nat → Str → List Str
  | 0, s => [s]
  | n + 1, s => (f s).flatMap (Regexp.iter f n)

/-- Apply `f` one or more times; `fuel` bounds the number of rounds, a round that consumes
nothing is not repeated. -/
def Regexp.many (f : Str → List Str) : Nat → Str → List Str
  | 0, _ => []
  | fuel + 1, s =>
    (f s).flatMap (fun r => r :: (if r.length < s.length then Regexp.many f fuel r else []))

/-- All the ways the expression can match a prefix of `s`, each given by what is left of `s`
after the match. -/
def Regexp.run : Regexp → Str → List Str
  | Regexp.lit c, s =>
    match s with
    | x :: xs => if x = c then [xs] else []
    | [] => []
  | Regexp.cls p, s =>
    match s with
    | x :: xs => if p x then [xs] else []
    | [] => []
  | Regexp.cat a b, s => (a.run s).flatMap b.run
  | Regexp.rep a n, s => Regexp.iter a.run n s
  | Regexp.plus a, s => Regexp.many a.run (s.length + 1) s
  | Regexp.eot, s => if s.isEmpty then [s] else []

/-- Go `(*Regexp).MatchString`: the expression matches somewhere in the text. -/
def Regexp.MatchString (re : Regexp) (s : Str) : Bool :=
  s.tails.any (fun t => !(re.run t).isEmpty)

/-- The class `[A-Z0-9]`. -/
def upperAlnum (c : Char) : Bool :=
  (decide ('A' ≤ c) && decide (c ≤ 'Z')) || (decide ('0' ≤ c) && decide (c ≤ '9'))

/-- The Perl class `\s` of Go regular expressions: tab, line feed, form feed, carriage return
and space. -/
def isSpace (c : Char) : Bool :=
  c == '\t' || c == '\n' || c == Char.ofNat 12 || c == '\r' || c == ' '

/-- The class `\S`. -/
def nonSpace (c : Char) : Bool := !isSpace c

/-! ## The data model: `mkvInfo` -/

/-- An element of `mkvInfo.Attachments`. -/
structure Attachment where
  ID : Int
  FileName : Str
  Size : Int
  ContentType : Str
  deriving DecidableEq, Inhabited

/-- The `Properties` of a track. -/
structure TrackProperties where
  Language : Str
  TrackName : Str
  deriving DecidableEq, Inhabited

/-- An element of `mkvInfo.Tracks`. -/
structure Track where
  ID : Int
  Type_ : Str
  Codec : Str
  Properties : TrackProperties
  deriving DecidableEq, Inhabited

/-- The metadata of a container, `mkvInfo`. -/
structure mkvInfo where
  Attachments : List Attachment
  Tracks : List Track
  deriving DecidableEq, Inhabited

/-- The zero value that `new(mkvInfo)` allocates. -/
def mkvInfo.zero : mkvInfo := { Attachments := [], Tracks := [] }


/-! ## The world outside the process -/

/-- How `newProcess(...)` followed by `p.Wait()` ends. -/
inductive ProcOutcome where
  /-- the call of `newProcess` returned an error: the tool could not be started -/
  | startFailed
  /-- the process started and `Wait` returned an error -/
  | waitFailed
  /-- the call of `Wait` succeeded and the process left this exit code -/
  | exited (code : Int)
  deriving DecidableEq, Inhabited

/-- The state of an `assProcessor` when `ASSFontSubset` starts its pipeline (the fields that
`mkv.go` assigns). -/
structure assProcessor where
  files : List Str
  _fonts : Str
  output : Str
  fonts : List Str
  deriving DecidableEq, Inhabited

/-- What the program does to the outside, in order. -/
inductive Event where
  /-- the program asks for a tool to be started with these arguments, and waits for it when
  it has started -/
  | exec (prog : Str) (args : List Str)
  /-- a line is written with `log.Printf` -/
  | log (line : Str)
  /-- the method `ASSFontSubset` is entered with these arguments (an observation point, the
  method does nothing to the outside there) -/
  | subsetCall (files : List Str) (fonts output : Str) (dirSafe : Bool)
  /-- the five stages of the pipeline are run on this `assProcessor` -/
  | pipeline (obj : assProcessor)
  /-- the helper `copyFileOrDir src dst` is called -/
  | copy (src dst : Str)
  /-- the call `os.RemoveAll path` -/
  | removeAll (path : Str)
  deriving DecidableEq, Inhabited

/-- Everything that happened so far, oldest first. -/
abbrev Trace := List Event

/-- The answers of everything outside `mkv.go`.  Each answer is a function of the history,
so that a tool may answer differently the second time it is asked. -/
structure World where
  /-- the outcome of a tool invocation and what it wrote to the buffer given as its standard
  output -/
  exec : Trace → Str → List Str → ProcOutcome × Str
  /-- Go `json.Unmarshal(data, obj)`: the object after decoding, and whether the returned error
  is `nil` -/
  unmarshal : Str → mkvInfo → mkvInfo × Bool
  /-- the helper `findMKVs dir` -/
  findMKVs : Trace → Str → List Str
  /-- the helper `findPath dir pattern` (its error is discarded by every caller) -/
  findPath : Trace → Str → Str → List Str
  /-- the helper `findFonts dir` -/
  findFonts : Trace → Str → List Str
  /-- the result of `obj.parse() && obj.matchFonts() && obj.createFontsSubset() &&
  obj.changeFontsName() && obj.replaceFontNameInAss()` -/
  pipeline : Trace → assProcessor → Bool
  /-- the helper `randomStr n` -/
  randomStr : Trace → Nat → Str
  /-- Go `os.TempDir()` -/
  TempDir : Str

/-- The constant `mkvmerge`. -/
def mkvmerge : Str := "mkvmerge".toList

/-- The constant `mkvextract`. -/
def mkvextract : Str := "mkvextract".toList

/-! ## `GetMKVInfo` and `CheckSubset` -/

/-- The method `GetMKVInfo`: `none` is the `nil` pointer. -/
def GetMKVInfo (w : World) (h : Trace) (file : Str) : Option mkvInfo × Trace :=
  let args := ["-J".toList, file]
  let r := w.exec h mkvmerge args
  let h := h ++ [Event.exec mkvmerge args]
  match r.1 with
  | ProcOutcome.startFailed => (none, h)
  | ProcOutcome.waitFailed => (none, h)
  | ProcOutcome.exited code =>
    if code = 0 then
      let obj := mkvInfo.zero
      -- `_ = json.Unmarshal(buf.Bytes(), obj)`: the error is dropped
      let obj := (w.unmarshal r.2 obj).1
      (some obj, h)
    else (none, h)

/-- The log line of a failed inspection. -/
def logInfoFailed (file : Str) : Event :=
  Event.log ("Failed to get the mkv file info: \"".toList ++ file ++ "\".".toList)

/-- The compiled expression of `CheckSubset`: a dot, eight characters of `[A-Z0-9]`, a dot,
one or more characters of `\S`, the end of the text. -/
def CheckSubset.reg : Regexp :=
  Regexp.cat (Regexp.lit '.') (Regexp.cat (Regexp.rep (Regexp.cls upperAlnum) 8)
    (Regexp.cat (Regexp.lit '.') (Regexp.cat (Regexp.plus (Regexp.cls nonSpace)) Regexp.eot)))

/-- The first loop of `CheckSubset`: `ass` after the loop over the tracks that are left. -/
def CheckSubset.tracksLoop : List Track → Bool → Bool
  | [], ass => ass
  | track :: rest, _ =>
    let ass := track.Type_ == "subtitles".toList && track.Codec == "SubStationAlpha".toList
    if ass then ass else CheckSubset.tracksLoop rest ass

/-- The second loop of `CheckSubset`: `ok` after the loop over the attachments that are
left. -/
def CheckSubset.attachmentsLoop (ass : Bool) : List Attachment → Bool → Bool
  | [], ok => ok
  | attachment :: rest, _ =>
    let ok := !ass || (HasPrefix attachment.ContentType "font/".toList
      && CheckSubset.reg.MatchString attachment.FileName)
    if ok then ok else CheckSubset.attachmentsLoop ass rest ok

/-- The part of `CheckSubset` that runs once the inspection has returned an object. -/
def CheckSubset.verdict (obj : mkvInfo) : Bool × Bool :=
  let ass := false
  let ok := false
  let ass := CheckSubset.tracksLoop obj.Tracks ass
  let ok := CheckSubset.attachmentsLoop ass obj.Attachments ok
  (!ass || (ass && ok), false)

/-- The method `CheckSubset`. -/
def CheckSubset (w : World) (h : Trace) (file : Str) : (Bool × Bool) × Trace :=
  let r := GetMKVInfo w h file
  match r.1 with
  | none => ((false, true), r.2 ++ [logInfoFailed file])
  | some obj => (CheckSubset.verdict obj, r.2)


/-! ## `ASSFontSubset` -/

/-- The method `ASSFontSubset`, up to the five stages of the pipeline, whose result is the
answer of the world. -/
def ASSFontSubset (w : World) (h : Trace) (files : List Str) (fonts output : Str)
    (dirSafe : Bool) : Bool × Trace :=
  let h := h ++ [Event.subsetCall files fonts output dirSafe]
  match files with
  | [] => (false, h)
  | first :: _ =>
    let d := (splitPath first).dir
    let _fonts := if fonts = [] then fonts ++ pathJoin [d, "fonts".toList] else fonts
    let dirSafe := if output = [] then true else dirSafe
    let output := if output = [] then d else output
    let output := if dirSafe then pathJoin [output, "subseted".toList] else output
    let obj : assProcessor :=
      { files := files, _fonts := _fonts, output := output, fonts := w.findFonts h _fonts }
    (w.pipeline h obj, h ++ [Event.pipeline obj])

/-! ## `DumpMKV` -/

/-- The first loop of `DumpMKV`: one entry for every attachment. -/
def DumpMKV.attachmentsLoop (output : Str) : List Attachment → List Str → List Str
  | [], attachments => attachments
  | _item :: rest, attachments =>
    DumpMKV.attachmentsLoop output rest
      (attachments ++ [fmtInt _item.ID ++ ":".toList ++
        pathJoin [output, "fonts".toList, _item.FileName]])

/-- The second loop of `DumpMKV`: one entry for every track of type `subtitles`. -/
def DumpMKV.tracksLoop (output : Str) : List Track → List Str → List Str
  | [], tracks => tracks
  | _item :: rest, tracks =>
    if _item.Type_ = "subtitles".toList then
      let s := fmtInt _item.ID ++ "_".toList ++ _item.Properties.Language ++ "_".toList
        ++ _item.Properties.TrackName
      let s := if _item.Codec = "SubStationAlpha".toList then s ++ ".ass".toList
        else s ++ ".sub".toList
      DumpMKV.tracksLoop output rest
        (tracks ++ [fmtInt _item.ID ++ ":".toList ++ pathJoin [output, s]])
    else DumpMKV.tracksLoop output rest tracks

/-- The argument list that `DumpMKV` gives to the extraction tool. -/
def DumpMKV.args (obj : mkvInfo) (file output : Str) : List Str :=
  let attachments := DumpMKV.attachmentsLoop output obj.Attachments []
  let tracks := DumpMKV.tracksLoop output obj.Tracks []
  let args : List Str := []
  let args := args ++ [file]
  let args := args ++ ["attachments".toList]
  let args := args ++ attachments
  let args := args ++ ["tracks".toList]
  args ++ tracks

/-- The state of the loop that follows a successful extraction. -/
structure DumpMKV.SubsetState where
  asses : List Str
  ec : Nat
  h : Trace

/-- The body of the loop of `DumpMKV` over the track entries, which runs once the extraction
has succeeded and the subset was requested.  The call of `ASSFontSubset` is part of the
body. -/
def DumpMKV.subsetStep (w : World) (st : DumpMKV.SubsetState) (_item : Str) :
    DumpMKV.SubsetState :=
  let _arr := Split _item ':'
  let f := _arr.getLastD []
  let asses := if HasSuffix f ".ass".toList then st.asses ++ [f] else st.asses
  if 0 < asses.length then
    let r := ASSFontSubset w st.h asses [] [] false
    { asses := asses, ec := if !r.1 then st.ec + 1 else st.ec, h := r.2 }
  else { asses := asses, ec := st.ec, h := st.h }

/-- The loop of `DumpMKV` over the track entries. -/
def DumpMKV.subsetLoop (w : World) (tracks : List Str) (st : DumpMKV.SubsetState) :
    DumpMKV.SubsetState :=
  tracks.foldl (DumpMKV.subsetStep w) st

/-- The method `DumpMKV`. -/
def DumpMKV (w : World) (h : Trace) (file output : Str) (subset : Bool) : Bool × Trace :=
  let ec := 0
  let r := GetMKVInfo w h file
  match r.1 with
  | none => (false, r.2 ++ [logInfoFailed file])
  | some obj =>
    let h := r.2
    let tracks := DumpMKV.tracksLoop output obj.Tracks []
    let args := DumpMKV.args obj file output
    let p := w.exec h mkvextract args
    let h := h ++ [Event.exec mkvextract args]
    match p.1 with
    | ProcOutcome.startFailed => (decide (ec + 1 = 0), h)
    | ProcOutcome.waitFailed => (decide (ec + 1 = 0), h)
    | ProcOutcome.exited code =>
      if code = 0 then
        if subset then
          let st := DumpMKV.subsetLoop w tracks { asses := [], ec := ec, h := h }
          (decide (st.ec = 0), st.h)
        else (decide (ec = 0), h)
      else (decide (ec + 1 = 0), h)

/-! ## `CreateMKV` -/

/-- The body of the loop of `CreateMKV` over the track paths: the arguments after one more
track. -/
def CreateMKV.trackStep (slang stitle : Str) (args : List Str) (_item : Str) : List Str :=
  let f := (splitPath _item).namewithoutext
  let _arr := Split f '_'
  let _sl := slang
  let _st := stitle
  let _sl := if 1 < _arr.length then _arr.getD 1 [] else _sl
  let _st := if 2 < _arr.length then _arr.getD 2 [] else _st
  let args := if _sl ≠ [] then args ++ ["--language".toList, "0:".toList ++ _sl] else args
  let args := if _st ≠ [] then args ++ ["--track-name".toList, "0:".toList ++ _st] else args
  args ++ [_item]

/-- The argument list that `CreateMKV` gives to the mux tool. -/
def CreateMKV.args (file : Str) (tracks attachments : List Str) (output slang stitle : Str)
    (clean : Bool) : List Str :=
  let args : List Str := []
  let args := args ++ ["--output".toList, output]
  let args := if clean then args ++ ["--no-subtitles".toList, "--no-attachments".toList]
    else args
  let args := args ++ [file]
  let args := attachments.foldl (fun args _item => args ++ ["--attach-file".toList, _item]) args
  tracks.foldl (CreateMKV.trackStep slang stitle) args

/-- The method `CreateMKV`. -/
def CreateMKV (w : World) (h : Trace) (file : Str) (tracks attachments : List Str)
    (output slang stitle : Str) (clean : Bool) : Bool × Trace :=
  let args := CreateMKV.args file tracks attachments output slang stitle clean
  let p := w.exec h mkvmerge args
  let h := h ++ [Event.exec mkvmerge args]
  match p.1 with
  | ProcOutcome.startFailed => (false, h)
  | ProcOutcome.waitFailed => (false, h)
  | ProcOutcome.exited code => (decide (code = 0), h)

/-! ## The batch methods -/

/-- The line `Dump (i/l) done.` and its likes. -/
def logProgress (what : Str) (i l : Nat) : Event :=
  Event.log (what ++ " (".toList ++ fmtInt i ++ "/".toList ++ fmtInt l ++ ") done.".toList)

/-- The line that `DumpMKVs` logs for a file whose dump failed. -/
def logDumpFailed (item : Str) : Event :=
  Event.log ("Failed to dump the mkv file \"".toList ++ item ++ "\".".toList)

/-- The destination directory that `DumpMKVs` computes for a file: the output root, the
directory of the file below `dir`, and the name of the file without its extension. -/
def DumpMKVs.dest (dir output item : Str) : Str :=
  let p := TrimPrefix item dir
  let sp := splitPath p
  pathJoin [output, sp.dir, sp.namewithoutext]

/-- The body of the loop of `DumpMKVs` for the file `item` of index `i`. -/
def DumpMKVs.step (w : World) (dir output : Str) (subset : Bool) (l : Nat) (item : Str)
    (i : Nat) (st : Nat × Trace) : Nat × Trace :=
  let p := DumpMKVs.dest dir output item
  let r := DumpMKV w st.2 item p subset
  let st : Nat × Trace := if !r.1 then (st.1 + 1, r.2 ++ [logDumpFailed item]) else (st.1, r.2)
  (st.1, st.2 ++ [logProgress "Dump".toList (i + 1) l])

/-- The loop of `DumpMKVs`; `i` is the index of the first file that is left. -/
def DumpMKVs.loop (w : World) (dir output : Str) (subset : Bool) (l : Nat) :
    List Str → Nat → Nat × Trace → Nat × Trace
  | [], _, st => st
  | item :: rest, i, st =>
    DumpMKVs.loop w dir output subset l rest (i + 1)
      (DumpMKVs.step w dir output subset l item i st)

/-- The method `DumpMKVs`. -/
def DumpMKVs (w : World) (h : Trace) (dir output : Str) (subset : Bool) : Bool × Trace :=
  let ec := 0
  let files := w.findMKVs h dir
  let l := files.length
  let st := DumpMKVs.loop w dir output subset l files 0 (ec, h)
  (decide (st.1 = 0), st.2)

/-- The method `QueryFolder`: the loop over the files, with the list of the reported files
and the trace. -/
def QueryFolder.loop (w : World) (l : Nat) :
    List Str → Nat → Nat × List Str × Trace → Nat × List Str × Trace
  | [], _, st => st
  | file :: rest, i, st =>
    let r := CheckSubset w st.2.2 file
    let a := r.1.1
    let b := r.1.2
    let ec := if b then st.1 + 1 else st.1
    let lines := if b then st.2.1 else if !a then st.2.1 ++ [file] else st.2.1
    QueryFolder.loop w l rest (i + 1) (ec, lines, r.2 ++ [logProgress "Query".toList (i + 1) l])

/-- The method `QueryFolder`. -/
def QueryFolder (w : World) (h : Trace) (dir : Str) : List Str × Trace :=
  let files := w.findMKVs h dir
  let st := QueryFolder.loop w files.length files 0 (0, [], h)
  (st.2.1, st.2.2)

/-- The state of the loop of `CreateMKVs` over the companion files of one video. -/
structure CreateMKVs.CopyState where
  asses : List Str
  subs : List Str
  h : Trace

/-- The loop of `CreateMKVs` over the companion files of one video: an `.ass` file is copied
into the workspace, any other file is kept where it is. -/
def CreateMKVs.copyLoop (p : Str) : List Str → CreateMKVs.CopyState → CreateMKVs.CopyState
  | [], st => st
  | sub :: rest, st =>
    if HasSuffix sub ".ass".toList then
      let __f := (splitPath sub).namewithoutext
      let _s := pathJoin [p, __f] ++ ".ass".toList
      CreateMKVs.copyLoop p rest
        { asses := st.asses ++ [_s], subs := st.subs, h := st.h ++ [Event.copy sub _s] }
    else CreateMKVs.copyLoop p rest { asses := st.asses, subs := st.subs ++ [sub], h := st.h }

/-- The line that `CreateMKVs` logs once its error counter is positive. -/
def logCreateFailed (item : Str) : Event :=
  Event.log ("Failed to create the mkv file: \"".toList ++ item ++ "\".".toList)

/-- The body of the loop of `CreateMKVs` for one video file. -/
def CreateMKVs.step (w : World) (sDir fDir tDir oDir slang stitle : Str) (clean : Bool)
    (l : Nat) (item : Str) (i : Nat) (st : Nat × Trace) : Nat × Trace :=
  let ec := st.1
  let h := st.2
  let _f := (splitPath item).namewithoutext
  let tmp := w.findPath h sDir (QuoteMeta _f ++ "\\S*\\.\\S+$".toList)
  let p := pathJoin [tDir, _f]
  let cs := CreateMKVs.copyLoop p tmp { asses := [], subs := [], h := h }
  let asses := cs.asses
  let subs := cs.subs
  let h := cs.h
  let found : Nat × List Str × List Str × Trace :=
    if 0 < asses.length then
      let h := h ++ [Event.removeAll tDir]
      let r := ASSFontSubset w h asses fDir [] false
      if !r.1 then (ec + 1, [], [], r.2)
      else
        let __p := pathJoin [p, "subsetted".toList]
        (ec, w.findFonts r.2 __p, w.findPath r.2 __p "\\.ass$".toList, r.2)
    else (ec, [], [], h)
  let ec := found.1
  let attachments := found.2.1
  let tracks := found.2.2.1
  let h := found.2.2.2
  let tracks := tracks ++ subs
  let fn := pathJoin [oDir, _f] ++ ".mkv".toList
  let r := CreateMKV w h item tracks attachments fn slang stitle clean
  let ec := if !r.1 then ec + 1 else ec
  let h := r.2
  let h := if 0 < ec then h ++ [logCreateFailed item] else h
  (ec, h ++ [logProgress "Create".toList (i + 1) l])

/-- The loop of `CreateMKVs`; `i` is the index of the first file that is left. -/
def CreateMKVs.loop (w : World) (sDir fDir tDir oDir slang stitle : Str) (clean : Bool)
    (l : Nat) : List Str → Nat → Nat × Trace → Nat × Trace
  | [], _, st => st
  | item :: rest, i, st =>
    CreateMKVs.loop w sDir fDir tDir oDir slang stitle clean l rest (i + 1)
      (CreateMKVs.step w sDir fDir tDir oDir slang stitle clean l item i st)

/-- The method `CreateMKVs`. -/
def CreateMKVs (w : World) (h : Trace) (vDir sDir fDir tDir oDir slang stitle : Str)
    (clean : Bool) : Bool × Trace :=
  let ec := 0
  let tDir := if tDir = [] then w.TempDir else tDir
  let tDir := pathJoin [tDir, w.randomStr h 8]
  let files := w.findPath h vDir "\\.\\S+$".toList
  let l := files.length
  let st := CreateMKVs.loop w sDir fDir tDir oDir slang stitle clean l files 0 (ec, h)
  let h := st.2 ++ [Event.removeAll tDir]
  (decide (st.1 = 0), h)

/-- The line that `MakeMKVs` logs for a file that could not be made. -/
def logMakeFailed (item : Str) : Event :=
  Event.log ("Faild to make the mkv file: \"".toList ++ item ++ "\".".toList)

/-- The loop of `MakeMKVs`; `i` is the index of the first file that is left. -/
def MakeMKVs.loop (w : World) (dir data output slang sttlte : Str) (l : Nat) :
    List Str → Nat → Nat × Trace → Nat × Trace
  | [], _, st => st
  | item :: rest, i, st =>
    let h := st.2
    let p := TrimPrefix item dir
    let sp := splitPath p
    let p := pathJoin [data, sp.dir, sp.namewithoutext]
    let _p := pathJoin [p, "subsetted".toList]
    let subs := w.findPath h p "\\.sub".toList
    let asses := w.findPath h _p "\\.ass$".toList
    let attachments := w.findFonts h _p
    let tracks := subs ++ asses
    let fn := pathJoin [output, sp.dir, sp.name]
    let r := CreateMKV w h item tracks attachments fn slang sttlte true
    let st : Nat × Trace := if !r.1 then (st.1 + 1, r.2 ++ [logMakeFailed item]) else (st.1, r.2)
    MakeMKVs.loop w dir data output slang sttlte l rest (i + 1)
      (st.1, st.2 ++ [logProgress "Make".toList (i + 1) l])

/-- The method `MakeMKVs`. -/
def MakeMKVs (w : World) (h : Trace) (dir data output slang sttlte : Str) : Bool × Trace :=
  let files := w.findMKVs h dir
  let st := MakeMKVs.loop w dir data output slang sttlte files.length files 0 (0, h)
  (decide (st.1 = 0), st.2)

/-! ## The words of the specification, and sample inputs -/

/-- The file-name signature of a font that went through the pipeline, in the words of the
specification: the name ends with a dot, exactly eight characters each in `A-Z` or `0-9`, a
dot, and one or more characters none of which is white space. -/
def subsettedName (name : Str) : Prop :=
  ∃ pre mid ext : Str, name = pre ++ '.' :: mid ++ '.' :: ext ∧ mid.length = 8 ∧
    (∀ c ∈ mid, ('A' ≤ c ∧ c ≤ 'Z') ∨ ('0' ≤ c ∧ c ≤ '9')) ∧
    ext ≠ [] ∧ ∀ c ∈ ext, c ∉ ['\t', '\n', Char.ofNat 12, '\r', ' ']

/-- Some track of the container has type `subtitles` together with codec
`SubStationAlpha`. -/
def hasAssSubtitle (obj : mkvInfo) : Prop :=
  ∃ t ∈ obj.Tracks, t.Type_ = "subtitles".toList ∧ t.Codec = "SubStationAlpha".toList

/-- The attachment has a content type that begins with `font/` and a file name with the
signature. -/
def subsettedFont (a : Attachment) : Prop :=
  (∃ rest : Str, a.ContentType = "font/".toList ++ rest) ∧ subsettedName a.FileName

/-- A world that always gives the same answers: every tool ends with `out` and writes
`stdout`, decoding is done by `dec`, the enumerations find `files`, the pipeline returns
`pipe`. -/
def World.fixed (out : ProcOutcome) (stdout : Str) (dec : Str → mkvInfo → mkvInfo × Bool)
    (files : List Str) (pipe : Bool) : World :=
  { exec := fun _ _ _ => (out, stdout),
    unmarshal := dec,
    findMKVs := fun _ _ => files,
    findPath := fun _ _ _ => files,
    findFonts := fun _ _ => [],
    pipeline := fun _ _ => pipe,
    randomStr := fun _ _ => "Xq3kT9bZ".toList,
    TempDir := "/tmp".toList }

/-- A container with one reduced font and one ASS subtitle track. -/
def sampleInfo : mkvInfo :=
  { Attachments := [{ ID := 1, FileName := "foo.AB12CD34.ttf".toList, Size := 10,
                      ContentType := "font/ttf".toList }],
    Tracks := [{ ID := 3, Type_ := "subtitles".toList, Codec := "SubStationAlpha".toList,
                 Properties := { Language := "eng".toList, TrackName := "Full".toList } }] }

/-- A decoder for which every input is the document of `obj`. -/
def decodeTo (obj : mkvInfo) : Str → mkvInfo → mkvInfo × Bool := fun _ _ => (obj, true)

/-- A decoder for which no input is well formed: the object is left as it was and the error
is not `nil`, which is what `json.Unmarshal` does on a syntax error. -/
def decodeFails : Str → mkvInfo → mkvInfo × Bool := fun _ obj => (obj, false)

/-- A path element that `path.Clean` keeps as it is and that holds no slash. -/
def plainName (e : Str) : Prop := e ≠ [] ∧ e ≠ ['.'] ∧ e ≠ ['.', '.'] ∧ '/' ∉ e

/-- The number that decimal digits denote, read after the number `acc`. -/
def decValue (acc : Nat) (ds : List Char) : Nat :=
  ds.foldl (fun a c => 10 * a + (c.toNat - 48)) acc

/-- The value that is applied for the field at position `k` of a track file name: the field
when the name has one at that position, the default of the caller when it has none. -/
def appliedField (fields : List Str) (k : Nat) (dflt : Str) : Str :=
  match fields.get? k with
  | some v => v
  | none => dflt

/-- The option that sets `value` on the track with index 0: nothing for an empty value. -/
def trackOption (flag value : Str) : List Str :=
  if value = [] then [] else [flag, "0:".toList ++ value]

/-- A subtitle track in ASS format whose language holds a slash. -/
def slashTrack : Track :=
  { ID := 3, Type_ := "subtitles".toList, Codec := "SubStationAlpha".toList,
    Properties := { Language := "a/b".toList, TrackName := "T".toList } }

/-- The file name under which `DumpMKV` extracts a subtitle track:
`<id>_<language>_<trackName>` and `.ass` for the codec `SubStationAlpha`, `.sub` for any
other. -/
def trackFileName (t : Track) : Str :=
  fmtInt t.ID ++ "_".toList ++ t.Properties.Language ++ "_".toList ++ t.Properties.TrackName
    ++ (if t.Codec = "SubStationAlpha".toList then ".ass".toList else ".sub".toList)

/-- Whether the event is an invocation of the extraction tool. -/
def isExtract : Event → Bool
  | Event.exec prog _ => prog == mkvextract
  | _ => false

/-- Whether the event is an invocation of the inspection and mux tool. -/
def isMerge : Event → Bool
  | Event.exec prog _ => prog == mkvmerge
  | _ => false

/-- Whether the event is an entry into `ASSFontSubset`. -/
def isSubsetCall : Event → Bool
  | Event.subsetCall _ _ _ _ => true
  | _ => false

/-- Whether the event belongs to a run of `ASSFontSubset`. -/
def isSubsetEvent : Event → Bool
  | Event.subsetCall _ _ _ _ => true
  | Event.pipeline _ => true
  | _ => false

/-- Whether the event is a progress line of the batch `what`. -/
def isProgress (what : Str) : Event → Bool
  | Event.log line => HasPrefix line (what ++ " (".toList)
  | _ => false

/-- A container with two font attachments and one ASS subtitle track. -/
def extractionSample : mkvInfo :=
  { Attachments := [{ ID := 1, FileName := "a.ttf".toList, Size := 10,
                      ContentType := "font/ttf".toList },
                    { ID := 2, FileName := "b.ttf".toList, Size := 10,
                      ContentType := "font/ttf".toList }],
    Tracks := [{ ID := 3, Type_ := "subtitles".toList, Codec := "SubStationAlpha".toList,
                 Properties := { Language := "eng".toList, TrackName := "Full".toList } }] }

/-- The inspection tool failed: it could not be started, it could not be waited on, or it
left an exit code other than zero. -/
def toolFailed (o : ProcOutcome) : Prop :=
  o = ProcOutcome.startFailed ∨ o = ProcOutcome.waitFailed ∨
    ∃ code : Int, code ≠ 0 ∧ o = ProcOutcome.exited code

/-- A world in which the inspection tool exits with code 0 after it has written text that
is not a JSON document, so that decoding fails. -/
def garbledWorld : World :=
  World.fixed (ProcOutcome.exited 0) "not json".toList decodeFails [] true

/-- A container with two ASS subtitle tracks and no attachment. -/
def twoAssInfo : mkvInfo :=
  { Attachments := [],
    Tracks := [{ ID := 1, Type_ := "subtitles".toList, Codec := "SubStationAlpha".toList,
                 Properties := { Language := "eng".toList, TrackName := "A".toList } },
               { ID := 2, Type_ := "subtitles".toList, Codec := "SubStationAlpha".toList,
                 Properties := { Language := "jpn".toList, TrackName := "B".toList } }] }

/-- A container with one ASS subtitle track whose name holds a colon. -/
def colonInfo : mkvInfo :=
  { Attachments := [],
    Tracks := [{ ID := 3, Type_ := "subtitles".toList, Codec := "SubStationAlpha".toList,
                 Properties := { Language := "eng".toList, TrackName := "a:b".toList } }] }

/-- The entries into `ASSFontSubset` among the events, in order. -/
def subsetCalls (t : Trace) : List Event := t.filter isSubsetCall

/-- The state of a `DumpMKVs` batch over `files` after its first `i` files: the error counter
and the trace. -/
def DumpMKVs.after (w : World) (h : Trace) (dir output : Str) (subset : Bool)
    (files : List Str) (i : Nat) : Nat × Trace :=
  DumpMKVs.loop w dir output subset files.length (files.take i) 0 (0, h)

/-- The per-file call of `DumpMKV` that a `DumpMKVs` batch makes for its file of index `i`, in
the state that the files before it have left. -/
def DumpMKVs.call (w : World) (h : Trace) (dir output : Str) (subset : Bool)
    (files : List Str) (i : Nat) : Bool × Trace :=
  DumpMKV w (DumpMKVs.after w h dir output subset files i).2 (files.getD i [])
    (DumpMKVs.dest dir output (files.getD i [])) subset

/-- Whether `path` is the directory `dir` or lies below it. -/
def isUnder (dir path : Str) : Bool := path == dir || HasPrefix path (dir ++ "/".toList)

/-- The copies made by `copyFileOrDir` that are still there after the events: a copy is there
from its `copy` event until a `removeAll` of it or of a directory above it. -/
def copiesPresent (t : Trace) : List Str :=
  t.foldl (fun present e =>
    match e with
    | Event.copy _ dst => present ++ [dst]
    | Event.removeAll path => present.filter (fun f => !isUnder path f)
    | _ => present) []

/-- A world with one video `v/ep1.mkv` and one companion subtitle file `s/ep1.ass`; every tool
exits with code 0, and the pipeline succeeds when all its input files are there. -/
def batchWorld : World :=
  { exec := fun _ _ _ => (ProcOutcome.exited 0, []),
    unmarshal := decodeTo sampleInfo,
    findMKVs := fun _ _ => ["v/ep1.mkv".toList],
    findPath := fun _ dir _ =>
      if dir = "v".toList then ["v/ep1.mkv".toList]
      else if dir = "s".toList then ["s/ep1.ass".toList] else [],
    findFonts := fun _ _ => [],
    pipeline := fun h obj => obj.files.all (fun f => (copiesPresent h).contains f),
    randomStr := fun _ _ => "Xq3kT9bZ".toList,
    TempDir := "/tmp".toList }

/-! # Properties -/

/-! ## The regular expression of `CheckSubset` -/

theorem upperAlnum_iff (c : Char) :
    upperAlnum c = true ↔ (('A' ≤ c ∧ c ≤ 'Z') ∨ ('0' ≤ c ∧ c ≤ '9')) := by
  simp [upperAlnum]

theorem nonSpace_iff (c : Char) :
    nonSpace c = true ↔ c ∉ ['\t', '\n', Char.ofNat 12, '\r', ' '] := by
  simp [nonSpace, isSpace, and_assoc]

theorem run_lit_cons (c x : Char) (xs : Str) :
    (Regexp.lit c).run (x :: xs) = if x = c then [xs] else [] := rfl

theorem run_lit_nil (c : Char) : (Regexp.lit c).run [] = [] := rfl

theorem run_cls_cons (p : Char → Bool) (x : Char) (xs : Str) :
    (Regexp.cls p).run (x :: xs) = if p x then [xs] else [] := rfl

theorem run_cls_nil (p : Char → Bool) : (Regexp.cls p).run [] = [] := rfl

theorem run_eot_cons (x : Char) (xs : Str) : Regexp.eot.run (x :: xs) = [] := rfl

theorem run_eot_nil : Regexp.eot.run [] = [[]] := rfl

theorem run_cat (a b : Regexp) (s : Str) :
    (Regexp.cat a b).run s = (a.run s).flatMap b.run := rfl

theorem run_rep (a : Regexp) (n : Nat) (s : Str) :
    (Regexp.rep a n).run s = Regexp.iter a.run n s := rfl

theorem run_plus (a : Regexp) (s : Str) :
    (Regexp.plus a).run s = Regexp.many a.run (s.length + 1) s := rfl

/-- A class repeated `n` times consumes the first `n` characters when they all belong to
it. -/
theorem iter_cls (p : Char → Bool) (n : Nat) (s : Str) :
    Regexp.iter (Regexp.cls p).run n s
      = if n ≤ s.length ∧ (s.take n).all p = true then [s.drop n] else [] := by
  induction n generalizing s with
  | zero => simp [Regexp.iter]
  | succ n ih =>
    cases s with
    | nil => simp [Regexp.iter, run_cls_nil]
    | cons x xs =>
      by_cases hx : p x = true
      · simp [Regexp.iter, run_cls_cons, hx, ih]
      · simp [Regexp.iter, run_cls_cons, hx]

/-- A class repeated one or more times reaches the end of the text exactly when the text is
not empty and lies in the class. -/
theorem many_cls_eot (p : Char → Bool) (s : Str) (fuel : Nat) (hf : s.length < fuel) :
    ((Regexp.many (Regexp.cls p).run fuel s).flatMap Regexp.eot.run ≠ [])
      ↔ (s ≠ [] ∧ ∀ c ∈ s, p c = true) := by
  induction s generalizing fuel with
  | nil =>
    cases fuel with
    | zero => simp [Regexp.many]
    | succ f => simp [Regexp.many, run_cls_nil]
  | cons x xs ih =>
    cases fuel with
    | zero => simp at hf
    | succ f =>
      have hf2 : xs.length < f := by simpa using hf
      by_cases hx : p x = true
      · have := ih f hf2
        cases xs with
        | nil => simp [Regexp.many, run_cls_cons, hx, run_eot_nil]
        | cons y ys =>
          simp only [Regexp.many, run_cls_cons, hx, if_true, List.flatMap_cons, List.flatMap_nil,
            List.append_nil, List.length_cons, Nat.lt_succ_self, run_eot_cons, List.nil_append]
          rw [this]
          simp [hx]
      · simp [Regexp.many, run_cls_cons, hx]

/-- The tail of the expression after the eight characters: a dot, `\S+`, the end. -/
theorem run_ext (s : Str) :
    ((Regexp.cat (Regexp.lit '.') (Regexp.cat (Regexp.plus (Regexp.cls nonSpace))
        Regexp.eot)).run s ≠ [])
      ↔ ∃ ext : Str, s = '.' :: ext ∧ ext ≠ [] ∧ ∀ c ∈ ext, nonSpace c = true := by
  cases s with
  | nil => simp [run_cat, run_lit_nil]
  | cons x xs =>
    by_cases hx : x = '.'
    · subst hx
      rw [run_cat, run_lit_cons, if_pos rfl, List.flatMap_cons, List.flatMap_nil,
        List.append_nil, run_cat, run_plus, many_cls_eot _ _ _ (Nat.lt_succ_self _)]
      simp
    · rw [run_cat, run_lit_cons, if_neg hx]
      simp [hx]

theorem reg_run_ne_nil (t : Str) :
    CheckSubset.reg.run t ≠ [] ↔
      ∃ mid ext : Str, t = '.' :: mid ++ '.' :: ext ∧ mid.length = 8 ∧
        (∀ c ∈ mid, upperAlnum c = true) ∧ ext ≠ [] ∧ ∀ c ∈ ext, nonSpace c = true := by
  unfold CheckSubset.reg
  cases t with
  | nil => simp [run_cat, run_lit_nil]
  | cons x xs =>
    by_cases hx : x = '.'
    · subst hx
      rw [run_cat, run_lit_cons, if_pos rfl, List.flatMap_cons, List.flatMap_nil,
        List.append_nil, run_cat, run_rep, iter_cls]
      by_cases h8 : 8 ≤ xs.length ∧ (xs.take 8).all upperAlnum = true
      · rw [if_pos h8, List.flatMap_cons, List.flatMap_nil, List.append_nil, run_ext]
        constructor
        · rintro ⟨ext, he, hne, hall⟩
          refine ⟨xs.take 8, ext, ?_, ?_, ?_, hne, hall⟩
          · rw [← he, List.cons_append, List.take_append_drop]
          · simp [h8.1]
          · simpa using h8.2
        · rintro ⟨mid, ext, he, hl, hm, hne, hall⟩
          refine ⟨ext, ?_, hne, hall⟩
          have : xs = mid ++ '.' :: ext := by simpa using he
          rw [this, ← hl, List.drop_left]
      · rw [if_neg h8]
        simp only [List.flatMap_nil, ne_eq, not_true_eq_false, false_iff]
        rintro ⟨mid, ext, he, hl, hm, hne, hall⟩
        apply h8
        have : xs = mid ++ '.' :: ext := by simpa using he
        subst this
        refine ⟨by simp [hl], ?_⟩
        rw [← hl, List.take_left]
        simpa using hm
    · rw [run_cat, run_lit_cons, if_neg hx]
      simp [hx]

theorem MatchString_reg (s : Str) :
    CheckSubset.reg.MatchString s = true ↔
      ∃ pre mid ext : Str, s = pre ++ '.' :: mid ++ '.' :: ext ∧ mid.length = 8 ∧
        (∀ c ∈ mid, upperAlnum c = true) ∧ ext ≠ [] ∧ ∀ c ∈ ext, nonSpace c = true := by
  unfold Regexp.MatchString
  rw [List.any_eq_true]
  constructor
  · rintro ⟨t, ht, hrun⟩
    have hne : CheckSubset.reg.run t ≠ [] := by
      intro h
      rw [h] at hrun
      simp at hrun
    obtain ⟨mid, ext, he, rest⟩ := (reg_run_ne_nil t).1 hne
    rw [List.mem_tails] at ht
    obtain ⟨pre, hp⟩ := ht
    exact ⟨pre, mid, ext, by rw [← hp, he]; simp, rest⟩
  · rintro ⟨pre, mid, ext, he, rest⟩
    refine ⟨'.' :: mid ++ '.' :: ext, ?_, ?_⟩
    · rw [List.mem_tails, he]
      exact ⟨pre, by simp⟩
    · have := (reg_run_ne_nil ('.' :: mid ++ '.' :: ext)).2 ⟨mid, ext, rfl, rest⟩
      cases hr : CheckSubset.reg.run ('.' :: mid ++ '.' :: ext) with
      | nil => exact absurd hr this
      | cons a b => rfl

/-! ## `CheckSubset` -/

theorem MatchString_reg_iff (s : Str) :
    CheckSubset.reg.MatchString s = true ↔ subsettedName s := by
  rw [MatchString_reg]
  unfold subsettedName
  simp only [upperAlnum_iff, nonSpace_iff]

theorem HasPrefix_iff (s pre : Str) : HasPrefix s pre = true ↔ ∃ rest, s = pre ++ rest := by
  unfold HasPrefix
  rw [List.isPrefixOf_iff_prefix]
  constructor
  · rintro ⟨r, hr⟩; exact ⟨r, hr.symm⟩
  · rintro ⟨r, hr⟩; exact ⟨r, hr.symm⟩

theorem tracksLoop_cons (track : Track) (rest : List Track) (b : Bool) :
    CheckSubset.tracksLoop (track :: rest) b
      = ((track.Type_ == "subtitles".toList && track.Codec == "SubStationAlpha".toList)
          || CheckSubset.tracksLoop rest false) := by
  rw [CheckSubset.tracksLoop]
  cases hq : (track.Type_ == "subtitles".toList && track.Codec == "SubStationAlpha".toList) <;>
    simp

theorem tracksLoop_iff (obj : mkvInfo) :
    CheckSubset.tracksLoop obj.Tracks false = true ↔ hasAssSubtitle obj := by
  unfold hasAssSubtitle
  induction obj.Tracks with
  | nil => simp [CheckSubset.tracksLoop]
  | cons t ts ih => rw [tracksLoop_cons]; simp [ih]

theorem attachmentsLoop_cons (ass : Bool) (a : Attachment) (rest : List Attachment) (b : Bool) :
    CheckSubset.attachmentsLoop ass (a :: rest) b
      = ((!ass || (HasPrefix a.ContentType "font/".toList
            && CheckSubset.reg.MatchString a.FileName))
          || CheckSubset.attachmentsLoop ass rest false) := by
  rw [CheckSubset.attachmentsLoop]
  cases hq : (!ass || (HasPrefix a.ContentType "font/".toList
            && CheckSubset.reg.MatchString a.FileName)) <;> simp

theorem attachmentsLoop_iff (l : List Attachment) :
    CheckSubset.attachmentsLoop true l false = true ↔ ∃ a ∈ l, subsettedFont a := by
  unfold subsettedFont
  induction l with
  | nil => simp [CheckSubset.attachmentsLoop]
  | cons a as ih =>
    rw [attachmentsLoop_cons]
    simp [ih, HasPrefix_iff, MatchString_reg_iff]

theorem verdict_fst_iff (obj : mkvInfo) :
    (CheckSubset.verdict obj).1 = true
      ↔ (¬ hasAssSubtitle obj ∨ ∃ a ∈ obj.Attachments, subsettedFont a) := by
  unfold CheckSubset.verdict
  simp only
  by_cases hass : hasAssSubtitle obj
  · have h1 := (tracksLoop_iff obj).2 hass
    rw [h1]
    simp [attachmentsLoop_iff, hass]
  · have h1 : CheckSubset.tracksLoop obj.Tracks false = false := by
      cases hq : CheckSubset.tracksLoop obj.Tracks false
      · rfl
      · exact absurd ((tracksLoop_iff obj).1 hq) hass
    rw [h1]
    simp [hass]

theorem verdict_snd (obj : mkvInfo) : (CheckSubset.verdict obj).2 = false := rfl

theorem CheckSubset_of_some (w : World) (h : Trace) (file : Str) (obj : mkvInfo)
    (hobj : (GetMKVInfo w h file).1 = some obj) :
    CheckSubset w h file = (CheckSubset.verdict obj, (GetMKVInfo w h file).2) := by
  unfold CheckSubset
  simp only [hobj]

/-- Claim C1.  Whenever the inspection returns an object, `CheckSubset` returns
`(complete, false)`, and `complete` is true exactly when no track has type `subtitles`
together with codec `SubStationAlpha`, or some attachment has a content type that begins
with `font/` and a file name that ends with a dot, eight characters of `A-Z`/`0-9`, a dot and
one or more characters that are not white space.  In particular a container without subtitle
tracks is complete, one with an ASS track and no font attachment is not, and one with an ASS
track and the attachment `foo.AB12CD34.ttf` of content type `font/ttf` is. -/
theorem CheckSubset_complete_iff (w : World) (h : Trace) (file : Str) (obj : mkvInfo)
    (hobj : (GetMKVInfo w h file).1 = some obj) :
    ∃ complete : Bool, (CheckSubset w h file).1 = (complete, false) ∧
      (complete = true ↔ (¬ hasAssSubtitle obj ∨ ∃ a ∈ obj.Attachments, subsettedFont a)) ∧
      ((∀ t ∈ obj.Tracks, t.Type_ ≠ "subtitles".toList) → complete = true) ∧
      (hasAssSubtitle obj →
        (∀ a ∈ obj.Attachments, ¬ ∃ rest : Str, a.ContentType = "font/".toList ++ rest) →
        complete = false) ∧
      (hasAssSubtitle obj →
        (∃ a ∈ obj.Attachments, a.FileName = "foo.AB12CD34.ttf".toList ∧
          a.ContentType = "font/ttf".toList) → complete = true) := by
  refine ⟨(CheckSubset.verdict obj).1, ?_, verdict_fst_iff obj, ?_, ?_, ?_⟩
  · rw [CheckSubset_of_some w h file obj hobj]
    rfl
  · intro hno
    rw [verdict_fst_iff]
    left
    rintro ⟨t, ht, h1, _⟩
    exact hno t ht h1
  · intro hass hnone
    cases hq : (CheckSubset.verdict obj).1
    · rfl
    · rcases (verdict_fst_iff obj).1 hq with h1 | ⟨a, ha, hp, _⟩
      · exact absurd hass h1
      · exact absurd hp (hnone a ha)
  · rintro - ⟨a, ha, hn, hc⟩
    rw [verdict_fst_iff]
    right
    refine ⟨a, ha, ⟨"ttf".toList, by rw [hc]; rfl⟩, ?_⟩
    rw [hn, ← MatchString_reg_iff]
    decide

/-- The statement of C1 at a container with one ASS track and the attachment
`foo.AB12CD34.ttf`: the inspection succeeds and the verdict is `(true, false)`. -/
theorem CheckSubset_complete_iff_witness :
    (GetMKVInfo (World.fixed (ProcOutcome.exited 0) [] (decodeTo sampleInfo) [] true) []
        "a.mkv".toList).1 = some sampleInfo ∧
      (CheckSubset (World.fixed (ProcOutcome.exited 0) [] (decodeTo sampleInfo) [] true) []
        "a.mkv".toList).1 = (true, false) := by
  refine ⟨rfl, ?_⟩
  obtain ⟨c, h1, -, -, -, h5⟩ := CheckSubset_complete_iff
    (World.fixed (ProcOutcome.exited 0) [] (decodeTo sampleInfo) [] true) [] "a.mkv".toList
    sampleInfo rfl
  rw [h1, h5 ⟨_, List.mem_singleton_self _, rfl, rfl⟩
    ⟨_, List.mem_singleton_self _, rfl, rfl⟩]

/-! ## Paths -/

theorem splitOn_append_sep (sep : Char) (xs ys : Str) (h : sep ∉ ys) :
    (xs ++ sep :: ys).splitOn sep = xs.splitOn sep ++ [ys] := by
  have hys : ys.splitOn sep = [ys] := by
    apply List.splitOnP_eq_single
    intro x hx hxs
    rw [beq_iff_eq] at hxs
    exact h (hxs ▸ hx)
  induction xs with
  | nil =>
    show List.splitOnP _ _ = _
    rw [List.nil_append, List.splitOnP_cons]
    simp only [beq_self_eq_true, if_true]
    show [] :: ys.splitOn sep = _
    rw [hys]; rfl
  | cons x xs ih =>
    show List.splitOnP _ _ = List.splitOnP _ _ ++ _
    rw [List.cons_append, List.splitOnP_cons, List.splitOnP_cons]
    have ih2 : List.splitOnP (fun c => c == sep) (xs ++ sep :: ys)
        = List.splitOnP (fun c => c == sep) xs ++ [ys] := ih
    rw [ih2]
    by_cases hx : (x == sep) = true
    · simp [hx]
    · simp only [hx, if_false]
      cases hq : List.splitOnP (fun c => c == sep) xs with
      | nil => exact absurd hq (List.splitOnP_ne_nil _ _)
      | cons a as => rfl

theorem cleanStep_plain (r : Bool) (S : List Str) (e : Str) (he : plainName e) :
    cleanStep r S e = S ++ [e] := by
  unfold cleanStep
  rw [if_neg (by rintro (h | h); exact he.1 h; exact he.2.1 h), if_neg he.2.2.1]

theorem intercalate_snoc (sep : Str) (S : List Str) (e : Str) (hS : S ≠ []) :
    List.intercalate sep (S ++ [e]) = List.intercalate sep S ++ sep ++ e := by
  induction S with
  | nil => exact absurd rfl hS
  | cons a as ih =>
    cases as with
    | nil => simp [List.intercalate, List.intersperse]
    | cons b bs =>
      have := ih (by simp)
      simp only [List.intercalate, List.cons_append, List.intersperse, List.flatten_cons,
        List.append_assoc, List.append_eq] at this ⊢
      rw [this]

theorem isRooted_append (p q : Str) (hp : p ≠ []) : isRooted (p ++ q) = isRooted p := by
  cases p with
  | nil => exact absurd rfl hp
  | cons x xs => rfl

theorem cleanStack_append (p e : Str) (hp : p ≠ []) (he : plainName e) :
    cleanStack (p ++ '/' :: e) = cleanStack p ++ [e] := by
  unfold cleanStack
  rw [isRooted_append p _ hp, splitOn_append_sep _ _ _ he.2.2.2, List.foldl_append]
  exact cleanStep_plain _ _ _ he

theorem pathClean_append (p e : Str) (hp : p ≠ []) (he : plainName e) :
    pathClean (p ++ '/' :: e)
      = if cleanStack p = [] then (if isRooted p then '/' :: e else e)
        else pathClean p ++ '/' :: e := by
  unfold pathClean
  simp only [cleanStack_append p e hp he, isRooted_append p _ hp]
  by_cases hS : cleanStack p = []
  · simp [hS, List.intercalate]
  · rw [if_neg hS, intercalate_snoc _ _ _ hS]
    by_cases hr : isRooted p = true
    · simp [hr]
    · simp [hr, hS]

theorem cleanStack_plain (e : Str) (he : plainName e) : cleanStack e = [e] := by
  unfold cleanStack
  have : e.splitOn '/' = [e] := by
    apply List.splitOnP_eq_single
    intro x hx hxs
    rw [beq_iff_eq] at hxs
    exact he.2.2.2 (hxs ▸ hx)
  rw [this, List.foldl_cons, List.foldl_nil]
  exact cleanStep_plain _ _ _ he

theorem isRooted_plain (e : Str) (he : plainName e) : isRooted e = false := by
  cases e with
  | nil => rfl
  | cons x xs =>
    have : x ≠ '/' := by
      intro h
      exact he.2.2.2 (h ▸ List.mem_cons_self _ _)
    simp [isRooted, this]

theorem pathClean_plain (e : Str) (he : plainName e) : pathClean e = e := by
  unfold pathClean
  simp [cleanStack_plain e he, isRooted_plain e he, List.intercalate]

theorem pathJoin_pair (out e : Str) (he : e ≠ []) :
    pathJoin [out, e] = if out = [] then pathClean e else pathClean (out ++ '/' :: e) := by
  unfold pathJoin
  cases out with
  | nil =>
    cases e with
    | nil => exact absurd rfl he
    | cons x xs => simp
  | cons y ys => simp

theorem takeWhile_append_stop (p : Char → Bool) (l r : Str) (x : Char)
    (hl : ∀ c ∈ l, p c = true) (hx : p x = false) : (l ++ x :: r).takeWhile p = l := by
  induction l with
  | nil => simp [List.takeWhile, hx]
  | cons a as ih =>
    have ha : p a = true := hl a (List.mem_cons_self _ _)
    simp only [List.cons_append, List.takeWhile_cons, ha, if_true]
    rw [ih (fun c hc => hl c (List.mem_cons_of_mem _ hc))]

theorem takeWhile_all (p : Char → Bool) (l : Str) (hl : ∀ c ∈ l, p c = true) :
    l.takeWhile p = l := by
  induction l with
  | nil => rfl
  | cons a as ih =>
    have ha : p a = true := hl a (List.mem_cons_self _ _)
    simp only [List.takeWhile_cons, ha, if_true]
    rw [ih (fun c hc => hl c (List.mem_cons_of_mem _ hc))]

/-- The last part of a text after its last occurrence of `x`. -/
theorem lastPart_append (x : Char) (q e : Str) (he : x ∉ e) :
    ((q ++ x :: e).reverse.takeWhile (fun c => c != x)).reverse = e := by
  have h1 : (q ++ x :: e).reverse = e.reverse ++ x :: q.reverse := by simp
  rw [h1, takeWhile_append_stop _ _ _ _ _ (by simp), List.reverse_reverse]
  intro c hc
  have : c ≠ x := by
    intro h
    exact he (h ▸ List.mem_reverse.1 hc)
  simpa using this

theorem lastPart_self (x : Char) (e : Str) (he : x ∉ e) :
    (e.reverse.takeWhile (fun c => c != x)).reverse = e := by
  rw [takeWhile_all, List.reverse_reverse]
  intro c hc
  have : c ≠ x := by
    intro h
    exact he (h ▸ List.mem_reverse.1 hc)
  simpa using this

theorem pathSplit_append (q e : Str) (he : '/' ∉ e) :
    pathSplit (q ++ '/' :: e) = (q ++ ['/'], e) := by
  unfold pathSplit
  simp only [lastPart_append '/' q e he]
  have : (q ++ '/' :: e).length - e.length = (q ++ ['/']).length := by
    simp only [List.length_append, List.length_cons, List.length_nil]
    omega
  rw [this]
  have h2 : q ++ '/' :: e = (q ++ ['/']) ++ e := by simp
  rw [h2, List.take_left]

theorem pathSplit_plain (e : Str) (he : '/' ∉ e) : pathSplit e = ([], e) := by
  unfold pathSplit
  simp only [lastPart_self '/' e he]
  simp

/-- A path joined with a plain name ends with that name, after a slash or alone. -/
theorem pathJoin_plain (out e : Str) (he : plainName e) :
    pathJoin [out, e] = e ∨ ∃ q : Str, pathJoin [out, e] = q ++ '/' :: e := by
  rw [pathJoin_pair out e he.1]
  by_cases ho : out = []
  · rw [if_pos ho, pathClean_plain e he]
    exact Or.inl rfl
  · rw [if_neg ho, pathClean_append out e ho he]
    by_cases hS : cleanStack out = []
    · rw [if_pos hS]
      by_cases hr : isRooted out = true
      · rw [if_pos hr]
        exact Or.inr ⟨[], rfl⟩
      · rw [if_neg hr]
        exact Or.inl rfl
    · rw [if_neg hS]
      exact Or.inr ⟨_, rfl⟩

theorem pathSplit_pathJoin (out e : Str) (he : plainName e) :
    (pathSplit (pathJoin [out, e])).2 = e := by
  rcases pathJoin_plain out e he with h | ⟨q, h⟩
  · rw [h, pathSplit_plain e he.2.2.2]
  · rw [h, pathSplit_append q e he.2.2.2]

theorem pathExt_plain (stem x : Str) (hs : '/' ∉ stem) (hx : '/' ∉ x) (hd : '.' ∉ x) :
    pathExt (stem ++ '.' :: x) = '.' :: x := by
  unfold pathExt
  have hno : '/' ∉ stem ++ '.' :: x := by
    simp only [List.mem_append, List.mem_cons, not_or]
    exact ⟨hs, by decide, hx⟩
  rw [pathSplit_plain _ hno]
  simp only [lastPart_append '.' stem x hd]
  simp

/-- The base name without extension of a path joined with `stem.x`. -/
theorem splitPath_pathJoin (out stem x : Str) (hs : '/' ∉ stem) (hx : '/' ∉ x)
    (hd : '.' ∉ x) (hne : x ≠ []) :
    (splitPath (pathJoin [out, stem ++ '.' :: x])).namewithoutext = stem ∧
    (splitPath (pathJoin [out, stem ++ '.' :: x])).name = stem ++ '.' :: x := by
  have hno : '/' ∉ stem ++ '.' :: x := by
    simp only [List.mem_append, List.mem_cons, not_or]
    exact ⟨hs, by decide, hx⟩
  have hplain : plainName (stem ++ '.' :: x) := by
    refine ⟨by simp, ?_, ?_, hno⟩
    · intro h
      cases stem with
      | nil => simp at h; exact hne h
      | cons a as => simp at h
    · intro h
      cases stem with
      | nil =>
        cases x with
        | nil => exact hne rfl
        | cons b bs =>
          simp at h
          exact hd (h.1 ▸ List.mem_cons_self _ _)
      | cons a as =>
        cases as with
        | nil =>
          simp at h
          exact hne h.2
        | cons c cs => simp at h
  unfold splitPath
  simp only [pathSplit_pathJoin out _ hplain, pathExt_plain stem x hs hx hd]
  simp

/-! ## Decimal rendering -/

theorem digitChar_isDigit (k : Nat) (hk : k < 10) : (Nat.digitChar k).isDigit = true := by
  interval_cases k <;> rfl

theorem toDigitsCore_digits (fuel n : Nat) (ds : List Char) (c : Char)
    (hc : c ∈ Nat.toDigitsCore 10 fuel n ds) : c ∈ ds ∨ c.isDigit = true := by
  induction fuel generalizing n ds with
  | zero => exact Or.inl (by simpa [Nat.toDigitsCore] using hc)
  | succ f ih =>
    rw [Nat.toDigitsCore] at hc
    have hd := digitChar_isDigit (n % 10) (Nat.mod_lt _ (by decide))
    split at hc
    · rcases List.mem_cons.1 hc with h | h
      · exact Or.inr (h ▸ hd)
      · exact Or.inl h
    · rcases ih _ _ hc with h | h
      · rcases List.mem_cons.1 h with h | h
        · exact Or.inr (h ▸ hd)
        · exact Or.inl h
      · exact Or.inr h

theorem toDigits_digits (n : Nat) (c : Char) (hc : c ∈ Nat.toDigits 10 n) :
    c.isDigit = true := by
  rcases toDigitsCore_digits _ _ _ _ hc with h | h
  · simp at h
  · exact h

/-- The decimal rendering of an integer holds digits and a minus sign only. -/
theorem fmtInt_chars (n : Int) (c : Char) (hc : c ∈ fmtInt n) :
    c.isDigit = true ∨ c = '-' := by
  cases n with
  | ofNat m => exact Or.inl (toDigits_digits m c hc)
  | negSucc m =>
    rcases List.mem_cons.1 hc with h | h
    · exact Or.inr h
    · exact Or.inl (toDigits_digits _ c h)

theorem fmtInt_not_mem (n : Int) (c : Char) (h1 : c.isDigit = false) (h2 : c ≠ '-') :
    c ∉ fmtInt n := by
  intro hc
  rcases fmtInt_chars n c hc with h | h
  · rw [h1] at h; exact Bool.false_ne_true h
  · exact h2 h

theorem digitChar_value (k : Nat) (hk : k < 10) : (Nat.digitChar k).toNat - 48 = k := by
  interval_cases k <;> rfl

theorem decValue_toDigitsCore (fuel n : Nat) (ds : List Char) (hf : n < fuel) :
    decValue 0 (Nat.toDigitsCore 10 fuel n ds) = decValue n ds := by
  induction fuel generalizing n ds with
  | zero => exact absurd hf (Nat.not_lt_zero _)
  | succ f ih =>
    rw [Nat.toDigitsCore]
    have hd := digitChar_value (n % 10) (Nat.mod_lt _ (by decide))
    split
    · rename_i h0
      simp only [decValue, List.foldl_cons, hd]
      congr 1
      omega
    · rename_i h0
      have hlt : n / 10 < f := by omega
      rw [ih _ _ hlt]
      simp only [decValue, List.foldl_cons, hd]
      congr 1
      omega

theorem toDigits_injective (a b : Nat) (h : Nat.toDigits 10 a = Nat.toDigits 10 b) : a = b := by
  have ha := decValue_toDigitsCore (a + 1) a [] (Nat.lt_succ_self _)
  have hb := decValue_toDigitsCore (b + 1) b [] (Nat.lt_succ_self _)
  unfold Nat.toDigits at h
  rw [h, hb] at ha
  simpa [decValue] using ha.symm

/-- Two integers with the same decimal rendering are equal. -/
theorem fmtInt_injective (a b : Int) (h : fmtInt a = fmtInt b) : a = b := by
  cases a with
  | ofNat m =>
    cases b with
    | ofNat k => exact congrArg _ (toDigits_injective m k h)
    | negSucc k =>
      exfalso
      have : '-' ∈ Nat.toDigits 10 m := by
        have h2 : Nat.toDigits 10 m = '-' :: Nat.toDigits 10 (k + 1) := h
        rw [h2]; exact List.mem_cons_self _ _
      exact absurd (toDigits_digits m '-' this) (by decide)
  | negSucc m =>
    cases b with
    | ofNat k =>
      exfalso
      have : '-' ∈ Nat.toDigits 10 k := by
        have h2 : '-' :: Nat.toDigits 10 (m + 1) = Nat.toDigits 10 k := h
        rw [← h2]; exact List.mem_cons_self _ _
      exact absurd (toDigits_digits k '-' this) (by decide)
    | negSucc k =>
      have h2 : '-' :: Nat.toDigits 10 (m + 1) = '-' :: Nat.toDigits 10 (k + 1) := h
      have h3 := toDigits_injective _ _ (List.cons.inj h2).2
      have : m = k := by omega
      rw [this]


/-! ## `CreateMKV` -/

theorem trackStep_eq (slang stitle : Str) (args : List Str) (_item : Str) :
    CreateMKV.trackStep slang stitle args _item
      = args
        ++ trackOption "--language".toList
            (appliedField (Split (splitPath _item).namewithoutext '_') 1 slang)
        ++ trackOption "--track-name".toList
            (appliedField (Split (splitPath _item).namewithoutext '_') 2 stitle)
        ++ [_item] := by
  unfold CreateMKV.trackStep
  simp only
  have hf : ∀ (l : List Str) (k : Nat) (d : Str),
      (if k < l.length then l.getD k [] else d) = appliedField l k d := by
    intro l k d
    unfold appliedField
    by_cases hk : k < l.length
    · rw [if_pos hk, List.get?_eq_get hk]
      simp [List.getD_eq_getElem?_getD, hk]
    · rw [if_neg hk, List.get?_eq_none.2 (by omega)]
  rw [hf, hf]
  unfold trackOption
  by_cases h1 : appliedField (Split (splitPath _item).namewithoutext '_') 1 slang = [] <;>
    by_cases h2 : appliedField (Split (splitPath _item).namewithoutext '_') 2 stitle = [] <;>
    simp [h1, h2]

theorem foldl_trackStep (slang stitle : Str) (tracks : List Str) (args : List Str) :
    tracks.foldl (CreateMKV.trackStep slang stitle) args
      = args ++ tracks.flatMap (fun t => CreateMKV.trackStep slang stitle [] t) := by
  induction tracks generalizing args with
  | nil => simp
  | cons t ts ih =>
    rw [List.foldl_cons, ih, List.flatMap_cons, trackStep_eq slang stitle args,
      trackStep_eq slang stitle []]
    simp

theorem foldl_attach (attachments : List Str) (args : List Str) :
    attachments.foldl (fun args _item => args ++ ["--attach-file".toList, _item]) args
      = args ++ attachments.flatMap (fun a => ["--attach-file".toList, a]) := by
  induction attachments generalizing args with
  | nil => simp
  | cons t ts ih => rw [List.foldl_cons, ih, List.flatMap_cons]; simp

theorem CreateMKV_args_eq (file : Str) (tracks attachments : List Str)
    (output slang stitle : Str) (clean : Bool) :
    CreateMKV.args file tracks attachments output slang stitle clean
      = ["--output".toList, output]
        ++ (if clean then ["--no-subtitles".toList, "--no-attachments".toList] else [])
        ++ [file]
        ++ attachments.flatMap (fun a => ["--attach-file".toList, a])
        ++ tracks.flatMap (fun t => CreateMKV.trackStep slang stitle [] t) := by
  unfold CreateMKV.args
  simp only [foldl_trackStep, foldl_attach]
  cases clean <;> simp

/-- Claim C2, amended.  The arguments of `CreateMKV` are the output, the cleaning flags, the
file, one `--attach-file` pair per attachment and, for every track path in order, the
language option, the title option and the path.  The value of an option is the second
(third) `_`-separated field of the base name without extension when the base name has a field
at that position, even an empty one, and the default of the caller when it has none; an
empty value gives no option.  So `3_eng_Full.ass` with the default language `jpn` gives
`--language 0:eng` and `--track-name 0:Full`, and `3.ass` gives both defaults when they are
not empty. -/
theorem CreateMKV_track_metadata (file : Str) (tracks attachments : List Str)
    (output slang stitle : Str) (clean : Bool) :
    CreateMKV.args file tracks attachments output slang stitle clean
      = ["--output".toList, output]
        ++ (if clean then ["--no-subtitles".toList, "--no-attachments".toList] else [])
        ++ [file]
        ++ attachments.flatMap (fun a => ["--attach-file".toList, a])
        ++ tracks.flatMap (fun t =>
            trackOption "--language".toList
              (appliedField (Split (splitPath t).namewithoutext '_') 1 slang)
            ++ trackOption "--track-name".toList
              (appliedField (Split (splitPath t).namewithoutext '_') 2 stitle)
            ++ [t]) ∧
    CreateMKV.args file ["3_eng_Full.ass".toList] [] output "jpn".toList stitle false
      = ["--output".toList, output, file, "--language".toList, "0:eng".toList,
          "--track-name".toList, "0:Full".toList, "3_eng_Full.ass".toList] ∧
    (slang ≠ [] → stitle ≠ [] →
      CreateMKV.args file ["3.ass".toList] [] output slang stitle false
        = ["--output".toList, output, file, "--language".toList, "0:".toList ++ slang,
            "--track-name".toList, "0:".toList ++ stitle, "3.ass".toList]) := by
  refine ⟨?_, ?_, ?_⟩
  · rw [CreateMKV_args_eq]
    simp only [trackStep_eq, List.nil_append]
  · rw [CreateMKV_args_eq]
    simp only [List.flatMap_cons, List.flatMap_nil, trackStep_eq]
    have h : Split (splitPath "3_eng_Full.ass".toList).namewithoutext '_'
        = ["3".toList, "eng".toList, "Full".toList] := by decide
    rw [h]
    have h1 : trackOption "--language".toList
        (appliedField ["3".toList, "eng".toList, "Full".toList] 1 "jpn".toList)
          = ["--language".toList, "0:eng".toList] := by decide
    have h2a : appliedField ["3".toList, "eng".toList, "Full".toList] 2 stitle
        = "Full".toList := rfl
    have h2 : trackOption "--track-name".toList "Full".toList
        = ["--track-name".toList, "0:Full".toList] := by decide
    rw [h1, h2a, h2]
    rfl
  · intro h1 h2
    rw [CreateMKV_args_eq]
    simp only [List.flatMap_cons, List.flatMap_nil, trackStep_eq]
    have h : Split (splitPath "3.ass".toList).namewithoutext '_' = ["3".toList] := by decide
    rw [h]
    have h3 : appliedField ["3".toList] 1 slang = slang := rfl
    have h4 : appliedField ["3".toList] 2 stitle = stitle := rfl
    rw [h3, h4]
    unfold trackOption
    rw [if_neg h1, if_neg h2]
    rfl

/-- The statement of C2 (amended) at the track file `3.ass` with the defaults `jpn` and
`Signs`. -/
theorem CreateMKV_track_metadata_witness :
    "jpn".toList ≠ [] ∧ "Signs".toList ≠ [] ∧
    CreateMKV.args "v.mkv".toList ["3.ass".toList] [] "o.mkv".toList "jpn".toList
        "Signs".toList false
      = ["--output".toList, "o.mkv".toList, "v.mkv".toList, "--language".toList,
          "0:jpn".toList, "--track-name".toList, "0:Signs".toList, "3.ass".toList] :=
  ⟨by decide, by decide,
    (CreateMKV_track_metadata "v.mkv".toList [] [] "o.mkv".toList "jpn".toList "Signs".toList
      false).2.2 (by decide) (by decide)⟩

/-- Claim C2 fails as stated: for the track file `3__.ass` and the non-empty defaults `jpn`
and `Signs`, the empty fields of the file name replace the defaults and no `--language` and
no `--track-name` option is produced. -/
theorem CreateMKV_empty_fields_counterexample :
    CreateMKV.args "v.mkv".toList ["3__.ass".toList] [] "o.mkv".toList "jpn".toList
        "Signs".toList false
      = ["--output".toList, "o.mkv".toList, "v.mkv".toList, "3__.ass".toList] ∧
    "--language".toList ∉ CreateMKV.args "v.mkv".toList ["3__.ass".toList] [] "o.mkv".toList
        "jpn".toList "Signs".toList false ∧
    "--track-name".toList ∉ CreateMKV.args "v.mkv".toList ["3__.ass".toList] []
        "o.mkv".toList "jpn".toList "Signs".toList false := by
  decide


/-! ## The naming convention -/

theorem tracksLoop_single (output : Str) (t : Track) (htype : t.Type_ = "subtitles".toList) :
    DumpMKV.tracksLoop output [t] []
      = [fmtInt t.ID ++ ":".toList ++ pathJoin [output,
          (fmtInt t.ID ++ '_' :: t.Properties.Language ++ '_' :: t.Properties.TrackName)
            ++ '.' :: (if t.Codec = "SubStationAlpha".toList then "ass".toList
                        else "sub".toList)]] := by
  rw [DumpMKV.tracksLoop, if_pos htype, DumpMKV.tracksLoop]
  by_cases hc : t.Codec = "SubStationAlpha".toList
  · simp only [if_pos hc]
    simp
  · simp only [if_neg hc]
    simp

/-- Claim C6, amended.  For a subtitle track whose language and name hold no `_` and no `/`,
and for every output directory, the base name without extension of the path that `DumpMKV`
requests, split on `_`, is the decimal track id, the language and the name; the decimal
rendering determines the id; and `CreateMKV` applies exactly that language and that name to
the path. -/
theorem naming_round_trip (output : Str) (t : Track) (slang stitle : Str) (args : List Str)
    (htype : t.Type_ = "subtitles".toList)
    (hl : '_' ∉ t.Properties.Language) (hl2 : '/' ∉ t.Properties.Language)
    (ht : '_' ∉ t.Properties.TrackName) (ht2 : '/' ∉ t.Properties.TrackName) :
    ∃ path : Str,
      DumpMKV.tracksLoop output [t] [] = [fmtInt t.ID ++ ":".toList ++ path] ∧
      Split (splitPath path).namewithoutext '_'
        = [fmtInt t.ID, t.Properties.Language, t.Properties.TrackName] ∧
      (∀ id : Int, fmtInt id = fmtInt t.ID → id = t.ID) ∧
      CreateMKV.trackStep slang stitle args path
        = args ++ trackOption "--language".toList t.Properties.Language
          ++ trackOption "--track-name".toList t.Properties.TrackName ++ [path] := by
  refine ⟨_, tracksLoop_single output t htype, ?_, fun id h => fmtInt_injective _ _ h, ?_⟩
  all_goals
    have hslash : '/' ∉ (if t.Codec = "SubStationAlpha".toList then "ass".toList
        else "sub".toList) := by split <;> decide
    have hdot : '.' ∉ (if t.Codec = "SubStationAlpha".toList then "ass".toList
        else "sub".toList) := by split <;> decide
    have hne : (if t.Codec = "SubStationAlpha".toList then "ass".toList
        else "sub".toList) ≠ [] := by split <;> decide
    have hstem : '/' ∉ fmtInt t.ID ++ '_' :: t.Properties.Language
        ++ '_' :: t.Properties.TrackName := by
      simp only [List.mem_append, List.mem_cons, not_or]
      exact ⟨⟨fmtInt_not_mem _ _ (by decide) (by decide), by decide, hl2⟩, by decide, ht2⟩
    have hsp := (splitPath_pathJoin output _ _ hstem hslash hdot hne).1
    have hfields : Split (fmtInt t.ID ++ '_' :: t.Properties.Language
        ++ '_' :: t.Properties.TrackName) '_'
          = [fmtInt t.ID, t.Properties.Language, t.Properties.TrackName] := by
      have := List.splitOn_intercalate
        [fmtInt t.ID, t.Properties.Language, t.Properties.TrackName] '_'
        (by
          intro l hmem
          simp only [List.mem_cons, List.mem_singleton, List.not_mem_nil, or_false] at hmem
          rcases hmem with h | h | h
          · rw [h]; exact fmtInt_not_mem _ _ (by decide) (by decide)
          · rw [h]; exact hl
          · rw [h]; exact ht)
        (by simp)
      simpa [Split, List.intercalate, List.intersperse] using this
  · rw [hsp, hfields]
  · rw [trackStep_eq, hsp, hfields]
    rfl

/-- The statement of C6 (amended) at the track `3`, `eng`, `Full` under the directory
`out`. -/
theorem naming_round_trip_witness :
    ∃ path : Str,
      DumpMKV.tracksLoop "out".toList sampleInfo.Tracks []
        = [fmtInt 3 ++ ":".toList ++ path] ∧
      Split (splitPath path).namewithoutext '_' = [fmtInt 3, "eng".toList, "Full".toList] := by
  obtain ⟨path, h1, h2, -, -⟩ := naming_round_trip "out".toList
    { ID := 3, Type_ := "subtitles".toList, Codec := "SubStationAlpha".toList,
      Properties := { Language := "eng".toList, TrackName := "Full".toList } } [] [] []
    rfl (by decide) (by decide) (by decide) (by decide)
  exact ⟨path, h1, h2⟩

/-- Claim C6 fails as stated: the language `a/b` and the name `T` hold no `_`, the path that
`DumpMKV` requests is `out/3_a/b_T.ass`, and decoding it gives the fields `b`, `T` instead
of `3`, `a/b`, `T`. -/
theorem naming_round_trip_slash_counterexample :
    '_' ∉ slashTrack.Properties.Language ∧ '_' ∉ slashTrack.Properties.TrackName ∧
    DumpMKV.tracksLoop "out".toList [slashTrack] [] = ["3:out/3_a/b_T.ass".toList] ∧
    Split (splitPath "out/3_a/b_T.ass".toList).namewithoutext '_'
      = ["b".toList, "T".toList] ∧
    Split (splitPath "out/3_a/b_T.ass".toList).namewithoutext '_'
      ≠ [fmtInt slashTrack.ID, slashTrack.Properties.Language,
          slashTrack.Properties.TrackName] := by
  decide


theorem cleanStack_ne_nil_of_clean (out : Str) (hclean : pathClean out = out)
    (hdot : out ≠ ['.']) (hroot : out ≠ ['/']) : cleanStack out ≠ [] := by
  intro hS
  unfold pathClean at hclean
  simp only [hS] at hclean
  by_cases hr : isRooted out = true
  · rw [if_pos hr] at hclean
    exact hroot hclean.symm
  · rw [if_neg hr] at hclean
    exact hdot hclean.symm

/-- A clean directory joined with a plain name is the two of them around a slash. -/
theorem pathJoin_two_clean (out b : Str) (hne : out ≠ []) (hclean : pathClean out = out)
    (hdot : out ≠ ['.']) (hroot : out ≠ ['/']) (hb : plainName b) :
    pathJoin [out, b] = out ++ '/' :: b := by
  rw [pathJoin_pair out b hb.1, if_neg hne, pathClean_append out b hne hb,
    if_neg (cleanStack_ne_nil_of_clean out hclean hdot hroot), hclean]

theorem pathJoin_triple (out a b : Str) (hne : out ≠ []) :
    pathJoin [out, a, b] = pathClean ((out ++ '/' :: a) ++ '/' :: b) := by
  unfold pathJoin
  cases out with
  | nil => exact absurd rfl hne
  | cons y ys => simp

theorem pathJoin_three_clean (out a b : Str) (hne : out ≠ []) (hclean : pathClean out = out)
    (hdot : out ≠ ['.']) (hroot : out ≠ ['/']) (ha : plainName a) (hb : plainName b) :
    pathJoin [out, a, b] = out ++ '/' :: a ++ '/' :: b := by
  have hS := cleanStack_ne_nil_of_clean out hclean hdot hroot
  have hS2 : cleanStack (out ++ '/' :: a) ≠ [] := by
    rw [cleanStack_append out a hne ha]
    simp
  rw [pathJoin_triple out a b hne, pathClean_append _ b (by simp) hb, if_neg hS2,
    pathClean_append out a hne ha, if_neg hS, hclean]

/-! ## `DumpMKV` -/

theorem attachmentsLoop_eq (output : Str) (l : List Attachment) (acc : List Str) :
    DumpMKV.attachmentsLoop output l acc
      = acc ++ l.map (fun a => fmtInt a.ID ++ ":".toList ++
          pathJoin [output, "fonts".toList, a.FileName]) := by
  induction l generalizing acc with
  | nil => simp [DumpMKV.attachmentsLoop]
  | cons a as ih => rw [DumpMKV.attachmentsLoop, ih]; simp

theorem tracksLoop_eq (output : Str) (l : List Track) (acc : List Str) :
    DumpMKV.tracksLoop output l acc
      = acc ++ (l.filter (fun t => decide (t.Type_ = "subtitles".toList))).map
          (fun t => fmtInt t.ID ++ ":".toList ++ pathJoin [output, trackFileName t]) := by
  induction l generalizing acc with
  | nil => simp [DumpMKV.tracksLoop]
  | cons t ts ih =>
    rw [DumpMKV.tracksLoop]
    by_cases ht : t.Type_ = "subtitles".toList
    · rw [if_pos ht]
      simp only
      rw [ih, List.filter_cons_of_pos (by simpa using ht), List.map_cons]
      have : (if t.Codec = "SubStationAlpha".toList then
            fmtInt t.ID ++ "_".toList ++ t.Properties.Language ++ "_".toList
              ++ t.Properties.TrackName ++ ".ass".toList
          else fmtInt t.ID ++ "_".toList ++ t.Properties.Language ++ "_".toList
              ++ t.Properties.TrackName ++ ".sub".toList) = trackFileName t := by
        unfold trackFileName
        split <;> rfl
      rw [this]
      simp
    · rw [if_neg ht, ih, List.filter_cons_of_neg (by simpa using ht)]

theorem DumpMKV_args_eq (obj : mkvInfo) (file output : Str) :
    DumpMKV.args obj file output
      = [file, "attachments".toList]
        ++ obj.Attachments.map (fun a => fmtInt a.ID ++ ":".toList ++
            pathJoin [output, "fonts".toList, a.FileName])
        ++ ["tracks".toList]
        ++ (obj.Tracks.filter (fun t => decide (t.Type_ = "subtitles".toList))).map
            (fun t => fmtInt t.ID ++ ":".toList ++ pathJoin [output, trackFileName t]) := by
  unfold DumpMKV.args
  simp only [attachmentsLoop_eq, tracksLoop_eq, List.nil_append]
  simp


theorem GetMKVInfo_trace (w : World) (h : Trace) (file : Str) :
    (GetMKVInfo w h file).2 = h ++ [Event.exec mkvmerge ["-J".toList, file]] := by
  unfold GetMKVInfo
  simp only
  split
  · rfl
  · rfl
  · split <;> rfl

theorem ASSFontSubset_trace (w : World) (h : Trace) (files : List Str) (fonts output : Str)
    (dirSafe : Bool) :
    ∃ ev : Trace, (ASSFontSubset w h files fonts output dirSafe).2
        = h ++ Event.subsetCall files fonts output dirSafe :: ev ∧
      ∀ e ∈ ev, isSubsetEvent e = true ∧ isSubsetCall e = false := by
  unfold ASSFontSubset
  cases files with
  | nil => exact ⟨[], by simp, by simp⟩
  | cons f fs =>
    refine ⟨[Event.pipeline _], by simp; rfl, ?_⟩
    intro e he
    rw [List.mem_singleton] at he
    rw [he]
    exact ⟨rfl, rfl⟩

theorem subsetStep_trace (w : World) (st : DumpMKV.SubsetState) (x : Str) :
    ∃ ev : Trace, (DumpMKV.subsetStep w st x).h = st.h ++ ev ∧
      ∀ e ∈ ev, isSubsetEvent e = true := by
  unfold DumpMKV.subsetStep
  simp only
  by_cases hpos : 0 < (if HasSuffix ((Split x ':').getLastD []) ".ass".toList = true
      then st.asses ++ [(Split x ':').getLastD []] else st.asses).length
  · rw [if_pos hpos]
    obtain ⟨ev1, h1, h1'⟩ := ASSFontSubset_trace w st.h
      (if HasSuffix ((Split x ':').getLastD []) ".ass".toList = true
        then st.asses ++ [(Split x ':').getLastD []] else st.asses) [] [] false
    refine ⟨_, h1, ?_⟩
    intro e he
    rcases List.mem_cons.1 he with h | h
    · rw [h]; rfl
    · exact (h1' e h).1
  · rw [if_neg hpos]
    exact ⟨[], by simp, by simp⟩

theorem subsetLoop_trace (w : World) (l : List Str) (st : DumpMKV.SubsetState) :
    ∃ ev : Trace, (DumpMKV.subsetLoop w l st).h = st.h ++ ev ∧
      ∀ e ∈ ev, isSubsetEvent e = true := by
  unfold DumpMKV.subsetLoop
  induction l generalizing st with
  | nil => exact ⟨[], by simp, by simp⟩
  | cons x xs ih =>
    obtain ⟨ev1, h1, h1'⟩ := subsetStep_trace w st x
    obtain ⟨ev2, h2, h2'⟩ := ih (DumpMKV.subsetStep w st x)
    refine ⟨ev1 ++ ev2, ?_, ?_⟩
    · rw [List.foldl_cons, h2, h1, List.append_assoc]
    · intro e he
      rcases List.mem_append.1 he with h | h
      · exact h1' e h
      · exact h2' e h

theorem subset_not_extract (e : Event) (h : isSubsetEvent e = true) : isExtract e = false := by
  cases e <;> simp_all [isSubsetEvent, isExtract]

/-- The events of `DumpMKV` once the inspection has returned an object: the inspection, the
extraction, and the runs of `ASSFontSubset`. -/
theorem DumpMKV_trace (w : World) (h : Trace) (file output : Str) (subset : Bool)
    (obj : mkvInfo) (hobj : (GetMKVInfo w h file).1 = some obj) :
    ∃ after : Trace, (DumpMKV w h file output subset).2
        = h ++ [Event.exec mkvmerge ["-J".toList, file],
                Event.exec mkvextract (DumpMKV.args obj file output)] ++ after ∧
      ∀ e ∈ after, isSubsetEvent e = true := by
  unfold DumpMKV
  simp only [hobj, GetMKVInfo_trace]
  split
  · exact ⟨[], by simp, by simp⟩
  · exact ⟨[], by simp, by simp⟩
  · split
    · split
      · obtain ⟨ev, h1, h2⟩ := subsetLoop_trace w (DumpMKV.tracksLoop output obj.Tracks [])
          { asses := [], ec := 0,
            h := h ++ [Event.exec mkvmerge ["-J".toList, file]]
              ++ [Event.exec mkvextract (DumpMKV.args obj file output)] }
        exact ⟨ev, by rw [h1]; simp, h2⟩
      · exact ⟨[], by simp, by simp⟩
    · exact ⟨[], by simp, by simp⟩


theorem trackFileName_plain (t : Track) (hl : '/' ∉ t.Properties.Language)
    (hn : '/' ∉ t.Properties.TrackName) : plainName (trackFileName t) := by
  have hmem : '_' ∈ trackFileName t := by
    unfold trackFileName
    simp
  refine ⟨?_, ?_, ?_, ?_⟩
  · intro h
    rw [h] at hmem
    exact absurd hmem (by decide)
  · intro h
    rw [h] at hmem
    exact absurd hmem (by decide)
  · intro h
    rw [h] at hmem
    exact absurd hmem (by decide)
  · unfold trackFileName
    simp only [List.mem_append, not_or]
    have h0 : '/' ∉ fmtInt t.ID := fmtInt_not_mem _ _ (by decide) (by decide)
    have h1 : '/' ∉ "_".toList := by decide
    have h2 : '/' ∉ (if t.Codec = "SubStationAlpha".toList then ".ass".toList
        else ".sub".toList) := by split <;> decide
    exact ⟨⟨⟨⟨⟨h0, h1⟩, hl⟩, h1⟩, hn⟩, h2⟩

/-- Claim C7.  Once the inspection has returned an object, `DumpMKV` invokes the extraction
tool exactly once, right after the inspection, and the argument list is the container path,
`attachments`, one entry `<id>:<output>/fonts/<fileName>` per attachment in order, `tracks`,
and one entry `<id>:<output>/<id>_<language>_<trackName><ext>` per track of type `subtitles`
in order; here `a/b` is `path.Join`.  For an output directory that is a clean path (not
empty, `.` or `/`), file names that are plain names and languages and names without a
slash, the joined paths are the literal concatenations. -/
theorem DumpMKV_extraction_request (w : World) (h : Trace) (file output : Str) (subset : Bool)
    (obj : mkvInfo) (hobj : (GetMKVInfo w h file).1 = some obj) :
    (∃ after : Trace, (DumpMKV w h file output subset).2
        = h ++ [Event.exec mkvmerge ["-J".toList, file],
                Event.exec mkvextract
                  ([file, "attachments".toList]
                    ++ obj.Attachments.map (fun a => fmtInt a.ID ++ ":".toList ++
                        pathJoin [output, "fonts".toList, a.FileName])
                    ++ ["tracks".toList]
                    ++ (obj.Tracks.filter
                          (fun t => decide (t.Type_ = "subtitles".toList))).map
                        (fun t => fmtInt t.ID ++ ":".toList ++
                          pathJoin [output, trackFileName t]))] ++ after ∧
      ∀ e ∈ after, isExtract e = false) ∧
    (output ≠ [] → pathClean output = output → output ≠ ['.'] → output ≠ ['/'] →
      (∀ a ∈ obj.Attachments, plainName a.FileName) →
      (∀ t ∈ obj.Tracks, '/' ∉ t.Properties.Language ∧ '/' ∉ t.Properties.TrackName) →
      DumpMKV.args obj file output
        = [file, "attachments".toList]
          ++ obj.Attachments.map (fun a => fmtInt a.ID ++ ":".toList ++
              (output ++ "/fonts/".toList ++ a.FileName))
          ++ ["tracks".toList]
          ++ (obj.Tracks.filter (fun t => decide (t.Type_ = "subtitles".toList))).map
              (fun t => fmtInt t.ID ++ ":".toList ++
                (output ++ "/".toList ++ trackFileName t))) := by
  constructor
  · obtain ⟨after, h1, h2⟩ := DumpMKV_trace w h file output subset obj hobj
    refine ⟨after, ?_, fun e he => subset_not_extract e (h2 e he)⟩
    rw [h1, DumpMKV_args_eq]
  · intro hne hclean hdot hroot hatt htr
    rw [DumpMKV_args_eq]
    have hfonts : plainName "fonts".toList := by unfold plainName; decide
    have e1 : obj.Attachments.map (fun a => fmtInt a.ID ++ ":".toList ++
          pathJoin [output, "fonts".toList, a.FileName])
        = obj.Attachments.map (fun a => fmtInt a.ID ++ ":".toList ++
          (output ++ "/fonts/".toList ++ a.FileName)) := by
      apply List.map_congr_left
      intro a ha
      rw [pathJoin_three_clean output _ _ hne hclean hdot hroot hfonts (hatt a ha)]
      simp
    have e2 : (obj.Tracks.filter (fun t => decide (t.Type_ = "subtitles".toList))).map
          (fun t => fmtInt t.ID ++ ":".toList ++ pathJoin [output, trackFileName t])
        = (obj.Tracks.filter (fun t => decide (t.Type_ = "subtitles".toList))).map
          (fun t => fmtInt t.ID ++ ":".toList ++ (output ++ "/".toList ++ trackFileName t)) := by
      apply List.map_congr_left
      intro t ht
      have ht2 := (htr t (List.mem_filter.1 ht).1)
      rw [pathJoin_two_clean output _ hne hclean hdot hroot
        (trackFileName_plain t ht2.1 ht2.2)]
      simp
    rw [e1, e2]

/-- The statement of C7 at the container with the attachments `1: a.ttf`, `2: b.ttf` and the
ASS track `3`, `eng`, `Full`, extracted to `out`. -/
theorem DumpMKV_extraction_request_witness :
    (GetMKVInfo (World.fixed (ProcOutcome.exited 0) [] (decodeTo extractionSample) [] true)
        [] "f.mkv".toList).1 = some extractionSample ∧
    DumpMKV.args extractionSample "f.mkv".toList "out".toList
      = ["f.mkv".toList, "attachments".toList, "1:out/fonts/a.ttf".toList,
          "2:out/fonts/b.ttf".toList, "tracks".toList, "3:out/3_eng_Full.ass".toList] := by
  refine ⟨rfl, ?_⟩
  rw [(DumpMKV_extraction_request
      (World.fixed (ProcOutcome.exited 0) [] (decodeTo extractionSample) [] true) []
      "f.mkv".toList "out".toList true extractionSample rfl).2
    (by decide) (by decide) (by decide) (by decide)
    (by unfold plainName; decide) (by decide)]
  decide


/-! ## Failed inspections, and the subset step of `DumpMKV` -/

theorem GetMKVInfo_of_failure (w : World) (h : Trace) (file : Str)
    (hfail : toolFailed (w.exec h mkvmerge ["-J".toList, file]).1) :
    (GetMKVInfo w h file).1 = none := by
  unfold GetMKVInfo
  simp only
  rcases hfail with hf | hf | ⟨code, hc, hf⟩
  · rw [hf]
  · rw [hf]
  · rw [hf]
    simp only [if_neg hc]

/-- Claim C3, amended.  When the inspection tool cannot be started, cannot be waited on, or
leaves a non-zero exit code, `GetMKVInfo` returns `nil`, and `CheckSubset` returns
`(false, true)`: the file is not reported as complete. -/
theorem GetMKVInfo_nil_on_tool_failure (w : World) (h : Trace) (file : Str)
    (hfail : toolFailed (w.exec h mkvmerge ["-J".toList, file]).1) :
    (GetMKVInfo w h file).1 = none ∧ (CheckSubset w h file).1 = (false, true) ∧
      (CheckSubset w h file).1.1 ≠ true := by
  have h1 := GetMKVInfo_of_failure w h file hfail
  have h2 : (CheckSubset w h file).1 = (false, true) := by
    unfold CheckSubset
    simp only [h1]
  refine ⟨h1, h2, ?_⟩
  rw [h2]
  decide

/-- The statement of C3 (amended) in a world where the inspection tool exits with code 2. -/
theorem GetMKVInfo_nil_on_tool_failure_witness :
    toolFailed ((World.fixed (ProcOutcome.exited 2) [] (decodeTo sampleInfo) [] true).exec []
        mkvmerge ["-J".toList, "a.mkv".toList]).1 ∧
    (CheckSubset (World.fixed (ProcOutcome.exited 2) [] (decodeTo sampleInfo) [] true) []
        "a.mkv".toList).1 = (false, true) :=
  ⟨Or.inr (Or.inr ⟨2, by decide, rfl⟩),
    (GetMKVInfo_nil_on_tool_failure
      (World.fixed (ProcOutcome.exited 2) [] (decodeTo sampleInfo) [] true) [] "a.mkv".toList
      (Or.inr (Or.inr ⟨2, by decide, rfl⟩))).2.1⟩

/-- Claim C3 fails as stated: when the tool exits with code 0 and its output cannot be
decoded, `GetMKVInfo` drops the decoding error and returns the object as allocated, not `nil`;
`CheckSubset` then returns `(true, false)` and reports the file as complete. -/
theorem GetMKVInfo_unparsable_counterexample :
    garbledWorld.exec [] mkvmerge ["-J".toList, "a.mkv".toList]
        = (ProcOutcome.exited 0, "not json".toList) ∧
    (garbledWorld.unmarshal "not json".toList mkvInfo.zero).2 = false ∧
    (GetMKVInfo garbledWorld [] "a.mkv".toList).1 = some mkvInfo.zero ∧
    (GetMKVInfo garbledWorld [] "a.mkv".toList).1 ≠ none ∧
    (CheckSubset garbledWorld [] "a.mkv".toList).1 = (true, false) := by
  decide

theorem subsetCalls_append (a b : Trace) :
    subsetCalls (a ++ b) = subsetCalls a ++ subsetCalls b := by
  unfold subsetCalls
  rw [List.filter_append]

/-- One round of the loop enters `ASSFontSubset` once when the list of ASS paths is not empty
after the round, and not at all when it is. -/
theorem subsetStep_calls (w : World) (st : DumpMKV.SubsetState) (x : Str) :
    (subsetCalls (DumpMKV.subsetStep w st x).h).length
      = (subsetCalls st.h).length + (if (DumpMKV.subsetStep w st x).asses = [] then 0 else 1) := by
  unfold DumpMKV.subsetStep
  simp only
  by_cases hpos : 0 < (if HasSuffix ((Split x ':').getLastD []) ".ass".toList = true
      then st.asses ++ [(Split x ':').getLastD []] else st.asses).length
  · rw [if_pos hpos]
    obtain ⟨ev, h1, h2⟩ := ASSFontSubset_trace w st.h
      (if HasSuffix ((Split x ':').getLastD []) ".ass".toList = true
        then st.asses ++ [(Split x ':').getLastD []] else st.asses) [] [] false
    have hne : (if HasSuffix ((Split x ':').getLastD []) ".ass".toList = true
        then st.asses ++ [(Split x ':').getLastD []] else st.asses) ≠ [] :=
      List.ne_nil_of_length_pos hpos
    have hev : subsetCalls ev = [] := by
      unfold subsetCalls
      rw [List.filter_eq_nil_iff]
      intro e he
      rw [(h2 e he).2]
      decide
    simp only [h1, if_neg hne]
    rw [subsetCalls_append]
    have hc : subsetCalls (Event.subsetCall
        (if HasSuffix ((Split x ':').getLastD []) ".ass".toList = true
          then st.asses ++ [(Split x ':').getLastD []] else st.asses) [] [] false :: ev)
        = [Event.subsetCall
        (if HasSuffix ((Split x ':').getLastD []) ".ass".toList = true
          then st.asses ++ [(Split x ':').getLastD []] else st.asses) [] [] false] := by
      have : ∀ (e : Event) (l : Trace), isSubsetCall e = true →
          subsetCalls (e :: l) = e :: subsetCalls l := by
        intro e l he
        unfold subsetCalls
        rw [List.filter_cons_of_pos he]
      rw [this _ _ (by rfl), hev]
    rw [hc]
    simp
  · rw [if_neg hpos]
    have hnil : (if HasSuffix ((Split x ':').getLastD []) ".ass".toList = true
        then st.asses ++ [(Split x ':').getLastD []] else st.asses) = [] := by
      cases hq : (if HasSuffix ((Split x ':').getLastD []) ".ass".toList = true
        then st.asses ++ [(Split x ':').getLastD []] else st.asses) with
      | nil => rfl
      | cons a as => rw [hq] at hpos; simp at hpos
    simp only [hnil, if_true, Nat.add_zero]

theorem subsetStep_asses (w : World) (st : DumpMKV.SubsetState) (x : Str) :
    (DumpMKV.subsetStep w st x).asses
      = if HasSuffix ((Split x ':').getLastD []) ".ass".toList = true
          then st.asses ++ [(Split x ':').getLastD []] else st.asses := by
  unfold DumpMKV.subsetStep
  simp only
  split_ifs <;> rfl

/-- Once the list of ASS paths is not empty, every further track entry enters
`ASSFontSubset` once more. -/
theorem subsetLoop_calls_of_ne_nil (w : World) (l : List Str) (st : DumpMKV.SubsetState)
    (hne : st.asses ≠ []) :
    (subsetCalls (DumpMKV.subsetLoop w l st).h).length
      = (subsetCalls st.h).length + l.length := by
  unfold DumpMKV.subsetLoop
  induction l generalizing st with
  | nil => simp
  | cons x xs ih =>
    have hne2 : (DumpMKV.subsetStep w st x).asses ≠ [] := by
      rw [subsetStep_asses]
      split
      · simp
      · exact hne
    rw [List.foldl_cons, ih _ hne2, subsetStep_calls, if_neg hne2, List.length_cons]
    omega

/-- The number of entries into `ASSFontSubset` during the loop of `DumpMKV` is the number of
track entries from the first one that ends in `.ass` on. -/
theorem subsetLoop_calls (w : World) (l : List Str) (ec : Nat) (h : Trace) :
    (subsetCalls (DumpMKV.subsetLoop w l { asses := [], ec := ec, h := h }).h).length
      = (subsetCalls h).length
        + (l.dropWhile
            (fun x => !HasSuffix ((Split x ':').getLastD []) ".ass".toList)).length := by
  induction l generalizing ec h with
  | nil => simp [DumpMKV.subsetLoop]
  | cons x xs ih =>
    have e1 : DumpMKV.subsetLoop w (x :: xs) { asses := [], ec := ec, h := h }
        = DumpMKV.subsetLoop w xs
            (DumpMKV.subsetStep w { asses := [], ec := ec, h := h } x) := rfl
    by_cases hx : HasSuffix ((Split x ':').getLastD []) ".ass".toList = true
    · have hne : (DumpMKV.subsetStep w { asses := [], ec := ec, h := h } x).asses ≠ [] := by
        rw [subsetStep_asses, if_pos hx]
        exact List.cons_ne_nil _ _
      have hc := subsetStep_calls w { asses := [], ec := ec, h := h } x
      rw [if_neg hne] at hc
      have hd : (x :: xs).dropWhile
          (fun x => !HasSuffix ((Split x ':').getLastD []) ".ass".toList) = x :: xs := by
        apply List.dropWhile_cons_of_neg
        rw [hx]
        decide
      rw [e1, subsetLoop_calls_of_ne_nil w xs _ hne, hc, hd, List.length_cons]
      show (subsetCalls h).length + 1 + xs.length = (subsetCalls h).length + (xs.length + 1)
      omega
    · have hstep : DumpMKV.subsetStep w { asses := [], ec := ec, h := h } x
          = { asses := [], ec := ec, h := h } := by
        unfold DumpMKV.subsetStep
        simp only [if_neg hx, List.length_nil, Nat.lt_irrefl, if_false]
      have hd : (x :: xs).dropWhile
          (fun x => !HasSuffix ((Split x ':').getLastD []) ".ass".toList)
          = xs.dropWhile
          (fun x => !HasSuffix ((Split x ':').getLastD []) ".ass".toList) := by
        apply List.dropWhile_cons_of_pos
        rw [Bool.not_eq_true] at hx
        rw [hx]
        decide
      rw [e1, hstep, ih, hd]

/-- Claim C5 on the code.  The call of `ASSFontSubset` is inside the loop over the track
entries, so the number of entries into it during the loop is the number of track entries
from the first one that ends in `.ass` on, not one.  At a container with two ASS subtitle
tracks, with the subset requested and every tool successful, `ASSFontSubset` is entered
twice, first with the path of the first track alone and then with both paths. -/
theorem DumpMKV_subset_called_per_track (w : World) (l : List Str) (ec : Nat) (h : Trace) :
    (subsetCalls (DumpMKV.subsetLoop w l { asses := [], ec := ec, h := h }).h).length
      = (subsetCalls h).length
        + (l.dropWhile
            (fun x => !HasSuffix ((Split x ':').getLastD []) ".ass".toList)).length ∧
    subsetCalls (DumpMKV (World.fixed (ProcOutcome.exited 0) [] (decodeTo twoAssInfo) [] true)
        [] "f.mkv".toList "out".toList true).2
      = [Event.subsetCall ["out/1_eng_A.ass".toList] [] [] false,
         Event.subsetCall ["out/1_eng_A.ass".toList, "out/2_jpn_B.ass".toList] [] [] false] :=
  ⟨subsetLoop_calls w l ec h, by decide⟩

theorem splitOnP_no_sep (sep : Char) (xs : Str) :
    ∀ l ∈ xs.splitOnP (fun c => c == sep), sep ∉ l := by
  induction xs with
  | nil =>
    intro l hl
    rw [List.splitOnP_nil, List.mem_singleton] at hl
    rw [hl]
    exact List.not_mem_nil _
  | cons x xs ih =>
    intro l hl
    rw [List.splitOnP_cons] at hl
    by_cases hx : (x == sep) = true
    · rw [if_pos hx] at hl
      rcases List.mem_cons.1 hl with h | h
      · rw [h]; exact List.not_mem_nil _
      · exact ih l h
    · rw [if_neg hx] at hl
      cases hq : List.splitOnP (fun c => c == sep) xs with
      | nil => exact absurd hq (List.splitOnP_ne_nil _ _)
      | cons a as =>
        rw [hq] at hl ih
        rcases List.mem_cons.1 hl with h | h
        · rw [h]
          intro hmem
          rcases List.mem_cons.1 hmem with h2 | h2
          · exact hx (by rw [h2]; exact beq_self_eq_true _)
          · exact ih a (List.mem_cons_self _ _) h2
        · exact ih l (List.mem_cons_of_mem _ h)

/-- The last piece of a text split on a character does not hold that character. -/
theorem Split_last_no_sep (x : Str) (sep : Char) : sep ∉ (Split x sep).getLastD [] := by
  unfold Split
  cases hq : x.splitOn sep with
  | nil => exact List.not_mem_nil _
  | cons a as =>
    have hmem : (a :: as).getLastD [] ∈ a :: as := by
      rw [List.getLastD_eq_getLast?, List.getLast?_eq_getLast _ (List.cons_ne_nil _ _)]
      exact List.getLast_mem _
    rw [← hq] at hmem
    rw [← hq]
    exact splitOnP_no_sep sep x _ hmem

/-- Claim C10 on the code.  The path that a round of the loop adds to the list handed to
`ASSFontSubset` is the last `:`-separated segment of the entry, which never holds a colon; a
destination path with a colon is therefore never recovered.  At a container whose ASS track
is named `a:b` the extraction entry is `3:out/3_eng_a:b.ass`, and the path handed to
`ASSFontSubset` is `b.ass`, not the destination path `out/3_eng_a:b.ass`. -/
theorem DumpMKV_colon_path_truncated (w : World) (st : DumpMKV.SubsetState) (x : Str) :
    ((DumpMKV.subsetStep w st x).asses = st.asses ∨
      ∃ f : Str, ':' ∉ f ∧ (DumpMKV.subsetStep w st x).asses = st.asses ++ [f]) ∧
    DumpMKV.tracksLoop "out".toList colonInfo.Tracks [] = ["3:out/3_eng_a:b.ass".toList] ∧
    subsetCalls (DumpMKV (World.fixed (ProcOutcome.exited 0) [] (decodeTo colonInfo) [] true)
        [] "f.mkv".toList "out".toList true).2
      = [Event.subsetCall ["b.ass".toList] [] [] false] := by
  refine ⟨?_, by decide, by decide⟩
  rw [subsetStep_asses]
  by_cases hx : HasSuffix ((Split x ':').getLastD []) ".ass".toList = true
  · rw [if_pos hx]
    exact Or.inr ⟨_, Split_last_no_sep x ':', rfl⟩
  · rw [if_neg hx]
    exact Or.inl rfl

/-! ## `ASSFontSubset` -/

/-- Claim C4 on the code: with an empty output directory, the pipeline is given the
directory of the first ASS file joined with `subseted`; its last element is `subseted`, so
it differs from every path joined with `subsetted`, the sub-path that `CreateMKVs` and
`MakeMKVs` read.  For the file `/w/ep1/ep1.ass` the pipeline writes to `/w/ep1/subseted`
and the batch reads `/w/ep1/subsetted`. -/
theorem ASSFontSubset_output_is_subseted (w : World) (h : Trace) (first : Str)
    (rest : List Str) (fonts : Str) (dirSafe : Bool) :
    (∃ obj : assProcessor,
      (ASSFontSubset w h (first :: rest) fonts [] dirSafe).2
        = h ++ [Event.subsetCall (first :: rest) fonts [] dirSafe, Event.pipeline obj] ∧
      obj.output = pathJoin [(splitPath first).dir, "subseted".toList] ∧
      (pathSplit obj.output).2 = "subseted".toList ∧
      ∀ p : Str, (pathSplit (pathJoin [p, "subsetted".toList])).2 = "subsetted".toList ∧
        obj.output ≠ pathJoin [p, "subsetted".toList]) ∧
    (ASSFontSubset (World.fixed (ProcOutcome.exited 0) [] (decodeTo sampleInfo) [] true) []
        ["/w/ep1/ep1.ass".toList] [] [] false).2
      = [Event.subsetCall ["/w/ep1/ep1.ass".toList] [] [] false,
         Event.pipeline { files := ["/w/ep1/ep1.ass".toList], _fonts := "/w/ep1/fonts".toList,
                          output := "/w/ep1/subseted".toList, fonts := [] }] ∧
    pathJoin ["/w/ep1".toList, "subsetted".toList] = "/w/ep1/subsetted".toList := by
  have hp1 : plainName "subseted".toList := by unfold plainName; decide
  have hp2 : plainName "subsetted".toList := by unfold plainName; decide
  refine ⟨⟨{ files := first :: rest,
              _fonts := if fonts = [] then fonts ++ pathJoin [(splitPath first).dir,
                "fonts".toList] else fonts,
              output := pathJoin [(splitPath first).dir, "subseted".toList],
              fonts := w.findFonts (h ++ [Event.subsetCall (first :: rest) fonts [] dirSafe])
                (if fonts = [] then fonts ++ pathJoin [(splitPath first).dir,
                  "fonts".toList] else fonts) }, ?_, rfl, ?_, ?_⟩, by decide, by decide⟩
  · unfold ASSFontSubset
    simp
  · show (pathSplit (pathJoin [(splitPath first).dir, "subseted".toList])).2
      = "subseted".toList
    exact pathSplit_pathJoin (splitPath first).dir "subseted".toList hp1
  · intro p
    refine ⟨pathSplit_pathJoin p "subsetted".toList hp2, ?_⟩
    show pathJoin [(splitPath first).dir, "subseted".toList]
      ≠ pathJoin [p, "subsetted".toList]
    intro heq
    have h1 := pathSplit_pathJoin (splitPath first).dir "subseted".toList hp1
    have h2 := pathSplit_pathJoin p "subsetted".toList hp2
    rw [heq, h2] at h1
    exact absurd h1 (by decide)


/-! ## `DumpMKVs` -/

theorem isProgress_logProgress (what : Str) (i l : Nat) :
    isProgress what (logProgress what i l) = true := by
  unfold isProgress logProgress HasPrefix
  simp [List.append_assoc]

theorem isProgress_logInfoFailed (file : Str) :
    isProgress "Dump".toList (logInfoFailed file) = false := rfl

theorem isProgress_logDumpFailed (item : Str) :
    isProgress "Dump".toList (logDumpFailed item) = false := rfl

theorem subset_not_merge (e : Event) (h : isSubsetEvent e = true) :
    isMerge e = false ∧ isProgress "Dump".toList e = false := by
  cases e <;> simp_all [isSubsetEvent, isMerge, isProgress]

/-- Every run of `DumpMKV` starts with the inspection of its file; nothing that follows is
another inspection or a progress line. -/
theorem DumpMKV_trace_any (w : World) (h : Trace) (file output : Str) (subset : Bool) :
    ∃ rest : Trace, (DumpMKV w h file output subset).2
        = h ++ Event.exec mkvmerge ["-J".toList, file] :: rest ∧
      ∀ e ∈ rest, isMerge e = false ∧ isProgress "Dump".toList e = false := by
  cases hobj : (GetMKVInfo w h file).1 with
  | none =>
    refine ⟨[logInfoFailed file], ?_, ?_⟩
    · unfold DumpMKV
      simp only [hobj, GetMKVInfo_trace]
      simp
    · intro e he
      rw [List.mem_singleton] at he
      rw [he]
      exact ⟨rfl, rfl⟩
  | some obj =>
    obtain ⟨after, h1, h2⟩ := DumpMKV_trace w h file output subset obj hobj
    refine ⟨Event.exec mkvextract (DumpMKV.args obj file output) :: after, ?_, ?_⟩
    · rw [h1]; simp
    · intro e he
      rcases List.mem_cons.1 he with h | h
      · rw [h]
        exact ⟨rfl, rfl⟩
      · exact subset_not_merge e (h2 e h)

theorem DumpMKVs_step_eq (w : World) (dir output : Str) (subset : Bool) (l : Nat) (item : Str)
    (i : Nat) (st : Nat × Trace) :
    DumpMKVs.step w dir output subset l item i st
      = (st.1 + (if (DumpMKV w st.2 item (DumpMKVs.dest dir output item) subset).1 = true
            then 0 else 1),
         (DumpMKV w st.2 item (DumpMKVs.dest dir output item) subset).2
          ++ (if (DumpMKV w st.2 item (DumpMKVs.dest dir output item) subset).1 = true
                then [] else [logDumpFailed item])
          ++ [logProgress "Dump".toList (i + 1) l]) := by
  unfold DumpMKVs.step
  cases hr : (DumpMKV w st.2 item (DumpMKVs.dest dir output item) subset).1 <;> simp [hr]

theorem DumpMKVs_loop_append (w : World) (dir output : Str) (subset : Bool) (l : Nat)
    (l1 l2 : List Str) (i : Nat) (st : Nat × Trace) :
    DumpMKVs.loop w dir output subset l (l1 ++ l2) i st
      = DumpMKVs.loop w dir output subset l l2 (i + l1.length)
          (DumpMKVs.loop w dir output subset l l1 i st) := by
  induction l1 generalizing i st with
  | nil => simp [DumpMKVs.loop]
  | cons x xs ih =>
    rw [List.cons_append, DumpMKVs.loop, ih, DumpMKVs.loop]
    congr 1
    simp only [List.length_cons]
    omega

theorem DumpMKVs_after_zero (w : World) (h : Trace) (dir output : Str) (subset : Bool)
    (files : List Str) : DumpMKVs.after w h dir output subset files 0 = (0, h) := by
  simp [DumpMKVs.after, DumpMKVs.loop]

theorem DumpMKVs_after_succ (w : World) (h : Trace) (dir output : Str) (subset : Bool)
    (files : List Str) (i : Nat) (hi : i < files.length) :
    DumpMKVs.after w h dir output subset files (i + 1)
      = DumpMKVs.step w dir output subset files.length (files.getD i []) i
          (DumpMKVs.after w h dir output subset files i) := by
  unfold DumpMKVs.after
  have ht : files.take (i + 1) = files.take i ++ [files.getD i []] := by
    rw [List.take_succ]
    simp [List.getD_eq_getElem?_getD, List.getElem?_eq_getElem hi]
  rw [ht, DumpMKVs_loop_append]
  simp [DumpMKVs.loop, List.length_take, Nat.min_eq_left (Nat.le_of_lt hi)]

theorem DumpMKVs_eq_after (w : World) (h : Trace) (dir output : Str) (subset : Bool) :
    DumpMKVs w h dir output subset
      = (decide ((DumpMKVs.after w h dir output subset (w.findMKVs h dir)
            (w.findMKVs h dir).length).1 = 0),
         (DumpMKVs.after w h dir output subset (w.findMKVs h dir)
            (w.findMKVs h dir).length).2) := by
  unfold DumpMKVs DumpMKVs.after
  simp


theorem DumpMKVs_after_step (w : World) (h : Trace) (dir output : Str) (subset : Bool)
    (files : List Str) (i : Nat) (hi : i < files.length) :
    DumpMKVs.after w h dir output subset files (i + 1)
      = ((DumpMKVs.after w h dir output subset files i).1
            + (if (DumpMKVs.call w h dir output subset files i).1 = true then 0 else 1),
         (DumpMKVs.call w h dir output subset files i).2
          ++ (if (DumpMKVs.call w h dir output subset files i).1 = true then []
                else [logDumpFailed (files.getD i [])])
          ++ [logProgress "Dump".toList (i + 1) files.length]) := by
  rw [DumpMKVs_after_succ w h dir output subset files i hi, DumpMKVs_step_eq]
  rfl

theorem DumpMKVs_after_count (w : World) (h : Trace) (dir output : Str) (subset : Bool)
    (files : List Str) (i : Nat) (hi : i ≤ files.length) :
    (DumpMKVs.after w h dir output subset files i).1
      = ((List.range i).filter
          (fun j => !(DumpMKVs.call w h dir output subset files j).1)).length := by
  induction i with
  | zero => simp [DumpMKVs_after_zero]
  | succ i ih =>
    rw [DumpMKVs_after_step w h dir output subset files i hi, List.range_succ,
      List.filter_append, List.length_append]
    simp only
    rw [ih (Nat.le_of_succ_le hi)]
    cases hc : (DumpMKVs.call w h dir output subset files i).1 <;> simp [hc]

theorem DumpMKVs_after_trace (w : World) (h : Trace) (dir output : Str) (subset : Bool)
    (files : List Str) (i : Nat) (hi : i ≤ files.length) :
    ∃ ev : Trace, (DumpMKVs.after w h dir output subset files i).2 = h ++ ev ∧
      ev.filter (isProgress "Dump".toList)
        = (List.range i).map (fun j => logProgress "Dump".toList (j + 1) files.length) ∧
      ev.filter isMerge
        = (files.take i).map (fun f => Event.exec mkvmerge ["-J".toList, f]) := by
  induction i with
  | zero => exact ⟨[], by simp [DumpMKVs_after_zero], by simp, by simp⟩
  | succ i ih =>
    obtain ⟨ev, h1, h2, h3⟩ := ih (Nat.le_of_succ_le hi)
    obtain ⟨rest, hr1, hr2⟩ := DumpMKV_trace_any w
      (DumpMKVs.after w h dir output subset files i).2 (files.getD i [])
      (DumpMKVs.dest dir output (files.getD i [])) subset
    have hcall : (DumpMKVs.call w h dir output subset files i).2
        = h ++ ev ++ Event.exec mkvmerge ["-J".toList, files.getD i []] :: rest := by
      unfold DumpMKVs.call
      rw [hr1, h1]
    have hrest1 : rest.filter (isProgress "Dump".toList) = [] := by
      rw [List.filter_eq_nil_iff]
      intro e he
      rw [(hr2 e he).2]
      decide
    have hrest2 : rest.filter isMerge = [] := by
      rw [List.filter_eq_nil_iff]
      intro e he
      rw [(hr2 e he).1]
      decide
    have ht : files.take (i + 1) = files.take i ++ [files.getD i []] := by
      rw [List.take_succ]
      simp [List.getD_eq_getElem?_getD, List.getElem?_eq_getElem hi]
    refine ⟨ev ++ Event.exec mkvmerge ["-J".toList, files.getD i []] :: rest
        ++ (if (DumpMKVs.call w h dir output subset files i).1 = true then []
              else [logDumpFailed (files.getD i [])])
        ++ [logProgress "Dump".toList (i + 1) files.length], ?_, ?_, ?_⟩
    · rw [DumpMKVs_after_step w h dir output subset files i hi]
      simp only [hcall, List.append_assoc]
    · rw [List.range_succ, List.map_append, ← h2]
      have e1 : isProgress "Dump".toList (Event.exec mkvmerge ["-J".toList, files.getD i []])
          = false := rfl
      have e2 : (if (DumpMKVs.call w h dir output subset files i).1 = true then []
              else [logDumpFailed (files.getD i [])]).filter (isProgress "Dump".toList)
            = [] := by
        split
        · rfl
        · rfl
      simp only [List.filter_append, List.filter_cons, List.filter_nil, hrest1, e1, e2,
        isProgress_logProgress, if_true, if_false, Bool.false_eq_true, List.append_nil,
        List.nil_append, List.map_cons, List.map_nil, List.append_assoc]
    · rw [ht, List.map_append, ← h3]
      have e1 : isMerge (Event.exec mkvmerge ["-J".toList, files.getD i []]) = true := rfl
      have e2 : (if (DumpMKVs.call w h dir output subset files i).1 = true then []
              else [logDumpFailed (files.getD i [])]).filter isMerge = [] := by
        split
        · rfl
        · rfl
      have e3 : isMerge (logProgress "Dump".toList (i + 1) files.length) = false := rfl
      simp only [List.filter_append, List.filter_cons, List.filter_nil, hrest2, e1, e2, e3,
        if_true, if_false, Bool.false_eq_true, List.append_nil,
        List.nil_append, List.map_cons, List.map_nil, List.append_assoc]


/-- Claim C9.  A `DumpMKVs` batch over the `N` enumerated files is a sequence of traces
`hs 0 = h`, ..., `hs N` in which the step from `hs i` to `hs (i + 1)` is the run of `DumpMKV`
on the file of index `i`, whatever the earlier results `ok`, followed by the failure line when
the run returned false and by the line `Dump (i+1/N) done.`.  The batch returns true exactly
when every run returned true, false exactly when the number of failed runs is positive; its
progress lines are those for `1`, ..., `N` in this order, and its inspections are those of
the enumerated files in this order.  As text: the logged lines that start with `Dump (` are
exactly the `N` lines `Dump (i/N) done.` for `i = 1`, ..., `N` in increasing order, both
counters in decimal; for two files the lines are `Dump (1/2) done.` and `Dump (2/2) done.`,
whether the per-file runs succeed (the batch returns true) or fail (it returns false). -/
theorem DumpMKVs_runs_every_file (w : World) (h : Trace) (dir output : Str) (subset : Bool) :
    (∃ (hs : Nat → Trace) (ok : Nat → Bool),
      hs 0 = h ∧
      (∀ i, i < (w.findMKVs h dir).length →
        ok i = (DumpMKV w (hs i) ((w.findMKVs h dir).getD i [])
                  (DumpMKVs.dest dir output ((w.findMKVs h dir).getD i [])) subset).1 ∧
        hs (i + 1)
          = (DumpMKV w (hs i) ((w.findMKVs h dir).getD i [])
                (DumpMKVs.dest dir output ((w.findMKVs h dir).getD i [])) subset).2
            ++ (if ok i = true then [] else [logDumpFailed ((w.findMKVs h dir).getD i [])])
            ++ [logProgress "Dump".toList (i + 1) (w.findMKVs h dir).length]) ∧
      (DumpMKVs w h dir output subset).2 = hs (w.findMKVs h dir).length ∧
      ((DumpMKVs w h dir output subset).1 = true
        ↔ ∀ i, i < (w.findMKVs h dir).length → ok i = true) ∧
      ((DumpMKVs w h dir output subset).1 = false
        ↔ 0 < ((List.range (w.findMKVs h dir).length).filter (fun i => !ok i)).length) ∧
      ∃ ev : Trace, (DumpMKVs w h dir output subset).2 = h ++ ev ∧
        ev.filter (isProgress "Dump".toList)
          = (List.range (w.findMKVs h dir).length).map
              (fun i => logProgress "Dump".toList (i + 1) (w.findMKVs h dir).length) ∧
        ev.filter isMerge
          = (w.findMKVs h dir).map (fun f => Event.exec mkvmerge ["-J".toList, f])) ∧
    (∃ ev : Trace, (DumpMKVs w h dir output subset).2 = h ++ ev ∧
      ev.filter (fun e =>
          match e with
          | Event.log line => HasPrefix line "Dump (".toList
          | _ => false)
        = (List.range (w.findMKVs h dir).length).map
            (fun i => Event.log ("Dump (".toList ++ Nat.toDigits 10 (i + 1) ++ "/".toList
              ++ Nat.toDigits 10 (w.findMKVs h dir).length ++ ") done.".toList))) ∧
    (∀ n : Nat, decValue 0 (Nat.toDigits 10 n) = n ∧
      ∀ c ∈ Nat.toDigits 10 n, c.isDigit = true) ∧
    (∀ i l : Nat, logProgress "Dump".toList i l
      = Event.log ("Dump (".toList ++ Nat.toDigits 10 i ++ "/".toList
          ++ Nat.toDigits 10 l ++ ") done.".toList)) ∧
    ((DumpMKVs (World.fixed (ProcOutcome.exited 0) [] (decodeTo sampleInfo)
          ["a.mkv".toList, "b.mkv".toList] true) [] [] "out".toList false).1 = true ∧
      (DumpMKVs (World.fixed (ProcOutcome.exited 0) [] (decodeTo sampleInfo)
          ["a.mkv".toList, "b.mkv".toList] true) [] [] "out".toList false).2.filter
          (fun e =>
            match e with
            | Event.log _ => true
            | _ => false)
        = [Event.log "Dump (1/2) done.".toList, Event.log "Dump (2/2) done.".toList]) ∧
    ((DumpMKVs (World.fixed (ProcOutcome.exited 1) [] (decodeTo sampleInfo)
          ["a.mkv".toList, "b.mkv".toList] true) [] [] "out".toList false).1 = false ∧
      (DumpMKVs (World.fixed (ProcOutcome.exited 1) [] (decodeTo sampleInfo)
          ["a.mkv".toList, "b.mkv".toList] true) [] [] "out".toList false).2.filter
          (fun e =>
            match e with
            | Event.log line => HasPrefix line "Dump (".toList
            | _ => false)
        = [Event.log "Dump (1/2) done.".toList, Event.log "Dump (2/2) done.".toList]) := by
  have htext : ∀ i l : Nat, logProgress "Dump".toList i l
      = Event.log ("Dump (".toList ++ Nat.toDigits 10 i ++ "/".toList
          ++ Nat.toDigits 10 l ++ ") done.".toList) := by
    intro i l
    rfl
  have hpred : ∀ e : Event,
      (match e with
        | Event.log line => HasPrefix line "Dump (".toList
        | _ => false) = isProgress "Dump".toList e := by
    intro e
    cases e <;> rfl
  refine ⟨?_, ?_, ?_, htext, by decide, by decide⟩
  rotate_left
  · obtain ⟨ev, h1, h2, -⟩ := DumpMKVs_after_trace w h dir output subset (w.findMKVs h dir)
      (w.findMKVs h dir).length (Nat.le_refl _)
    refine ⟨ev, ?_, ?_⟩
    · rw [DumpMKVs_eq_after]
      exact h1
    · rw [List.filter_congr (fun e _ => hpred e), h2]
      apply List.map_congr_left
      intro i _
      exact htext (i + 1) _
  · intro n
    refine ⟨?_, fun c hc => toDigits_digits n c hc⟩
    have := decValue_toDigitsCore (n + 1) n [] (Nat.lt_succ_self _)
    simpa [decValue] using this
  have hcount := DumpMKVs_after_count w h dir output subset (w.findMKVs h dir)
    (w.findMKVs h dir).length (Nat.le_refl _)
  have hres : (DumpMKVs w h dir output subset).1
      = decide (((List.range (w.findMKVs h dir).length).filter
          (fun j => !(DumpMKVs.call w h dir output subset (w.findMKVs h dir) j).1)).length
            = 0) := by
    rw [DumpMKVs_eq_after, hcount]
  refine ⟨fun i => (DumpMKVs.after w h dir output subset (w.findMKVs h dir) i).2,
    fun i => (DumpMKVs.call w h dir output subset (w.findMKVs h dir) i).1, ?_, ?_, ?_, ?_, ?_, ?_⟩
  · simp only [DumpMKVs_after_zero]
  · intro i hi
    refine ⟨rfl, ?_⟩
    simp only [DumpMKVs_after_step w h dir output subset (w.findMKVs h dir) i hi]
    rfl
  · rw [DumpMKVs_eq_after]
  · rw [hres, decide_eq_true_iff, List.length_eq_zero, List.filter_eq_nil_iff]
    constructor
    · intro hall i hi
      have := hall i (List.mem_range.2 hi)
      simpa using this
    · intro hall i hi
      simp [hall i (List.mem_range.1 hi)]
  · rw [hres, decide_eq_false_iff_not]
    exact ⟨Nat.pos_of_ne_zero, fun hpos => Nat.pos_iff_ne_zero.1 hpos⟩
  · obtain ⟨ev, h1, h2, h3⟩ := DumpMKVs_after_trace w h dir output subset (w.findMKVs h dir)
      (w.findMKVs h dir).length (Nat.le_refl _)
    refine ⟨ev, ?_, h2, ?_⟩
    · rw [DumpMKVs_eq_after]
      exact h1
    · rw [h3, List.take_length]


/-! ## `CreateMKVs` -/

theorem CreateMKV_trace (w : World) (h : Trace) (file : Str) (tracks attachments : List Str)
    (output slang stitle : Str) (clean : Bool) :
    (CreateMKV w h file tracks attachments output slang stitle clean).2
      = h ++ [Event.exec mkvmerge
          (CreateMKV.args file tracks attachments output slang stitle clean)] := by
  unfold CreateMKV
  simp only
  split <;> rfl

/-- The trace of one round of `CreateMKVs` extends the trace of its copies. -/
theorem CreateMKVs_step_trace (w : World) (sDir fDir tDir oDir slang stitle : Str)
    (clean : Bool) (l : Nat) (item : Str) (i : Nat) (st : Nat × Trace)
    (cs : CreateMKVs.CopyState)
    (hcs : cs = CreateMKVs.copyLoop (pathJoin [tDir, (splitPath item).namewithoutext])
      (w.findPath st.2 sDir
        (QuoteMeta (splitPath item).namewithoutext ++ "\\S*\\.\\S+$".toList))
      { asses := [], subs := [], h := st.2 })
    (hpos : 0 < cs.asses.length) :
    ∃ rest : Trace,
      (CreateMKVs.step w sDir fDir tDir oDir slang stitle clean l item i st).2
        = cs.h ++ Event.removeAll tDir :: Event.subsetCall cs.asses fDir [] false :: rest := by
  obtain ⟨ev, h1, -⟩ := ASSFontSubset_trace w (cs.h ++ [Event.removeAll tDir]) cs.asses fDir []
    false
  unfold CreateMKVs.step
  simp only [← hcs, hpos, if_true, CreateMKV_trace, h1]
  split_ifs <;> simp only [List.append_assoc, List.cons_append, List.nil_append] <;>
    exact ⟨_, rfl⟩

/-- Claim C8 on the code.  In every round of a `CreateMKVs` batch whose file has an ASS
companion, the workspace is removed after the copies and right before the entry into
`ASSFontSubset` on the copied paths.  At a batch of one video with one ASS companion the
workspace `/tmp/Xq3kT9bZ` is removed right after the copy of the companion into it, so the
copied file, present after the copy, is no longer there when its path is handed to the
pipeline; the workspace is removed once more at the end of the batch. -/
theorem CreateMKVs_workspace_removed_before_subset (w : World)
    (sDir fDir tDir oDir slang stitle : Str) (clean : Bool) (l : Nat) (item : Str) (i : Nat)
    (st : Nat × Trace) :
    ((CreateMKVs.copyLoop (pathJoin [tDir, (splitPath item).namewithoutext])
          (w.findPath st.2 sDir
            (QuoteMeta (splitPath item).namewithoutext ++ "\\S*\\.\\S+$".toList))
          { asses := [], subs := [], h := st.2 }).asses = [] ∨
      ∃ rest : Trace,
        (CreateMKVs.step w sDir fDir tDir oDir slang stitle clean l item i st).2
          = (CreateMKVs.copyLoop (pathJoin [tDir, (splitPath item).namewithoutext])
              (w.findPath st.2 sDir
                (QuoteMeta (splitPath item).namewithoutext ++ "\\S*\\.\\S+$".toList))
              { asses := [], subs := [], h := st.2 }).h
            ++ Event.removeAll tDir
              :: Event.subsetCall
                  (CreateMKVs.copyLoop (pathJoin [tDir, (splitPath item).namewithoutext])
                    (w.findPath st.2 sDir
                      (QuoteMeta (splitPath item).namewithoutext ++ "\\S*\\.\\S+$".toList))
                    { asses := [], subs := [], h := st.2 }).asses fDir [] false
              :: rest) ∧
    CreateMKVs batchWorld [] "v".toList "s".toList "f".toList [] "o".toList [] [] false
      = (false,
         [Event.copy "s/ep1.ass".toList "/tmp/Xq3kT9bZ/ep1/ep1.ass".toList,
          Event.removeAll "/tmp/Xq3kT9bZ".toList,
          Event.subsetCall ["/tmp/Xq3kT9bZ/ep1/ep1.ass".toList] "f".toList [] false,
          Event.pipeline { files := ["/tmp/Xq3kT9bZ/ep1/ep1.ass".toList], _fonts := "f".toList,
                           output := "/tmp/Xq3kT9bZ/ep1/subseted".toList, fonts := [] },
          Event.exec mkvmerge ["--output".toList, "o/ep1.mkv".toList, "v/ep1.mkv".toList],
          logCreateFailed "v/ep1.mkv".toList,
          logProgress "Create".toList 1 1,
          Event.removeAll "/tmp/Xq3kT9bZ".toList]) ∧
    copiesPresent [Event.copy "s/ep1.ass".toList "/tmp/Xq3kT9bZ/ep1/ep1.ass".toList]
      = ["/tmp/Xq3kT9bZ/ep1/ep1.ass".toList] ∧
    copiesPresent [Event.copy "s/ep1.ass".toList "/tmp/Xq3kT9bZ/ep1/ep1.ass".toList,
                   Event.removeAll "/tmp/Xq3kT9bZ".toList] = [] := by
  refine ⟨?_, by decide, by decide, by decide⟩
  cases hq : (CreateMKVs.copyLoop (pathJoin [tDir, (splitPath item).namewithoutext])
          (w.findPath st.2 sDir
            (QuoteMeta (splitPath item).namewithoutext ++ "\\S*\\.\\S+$".toList))
          { asses := [], subs := [], h := st.2 }).asses with
  | nil => exact Or.inl rfl
  | cons a as =>
    right
    rw [← hq]
    exact CreateMKVs_step_trace w sDir fDir tDir oDir slang stitle clean l item i st _ rfl
      (by rw [hq]; exact Nat.succ_pos _)

end mkvlib
